import Mathlib

/-!
Verification of the evaluator-dispatch and ODE-solving subsystem of the
pymob/moppy simulation framework, formalized as a shallow embedding.

Python dictionaries are modelled as association lists (`List (K × α)`)
that preserve insertion order; Python exceptions are modelled with
`Except`; numpy float values are modelled as rationals together with an
explicit NaN marker; numpy arrays are modelled as lists (row-major with
an explicit shape where needed).  External-library behaviour that the
repository relies on but that is not part of the sources
(diffrax.diffeqsolve, sklearn.MinMaxScaler, the SolverBase/Evaluator
plumbing) is modelled from the specification and marked as such in the
corresponding doc comments.
-/

set_option autoImplicit false
set_option linter.unusedVariables false

namespace Pymob

universe u v

/-! ## Association-list dictionaries (Python dict model) -/

/-- Look up a key in an insertion-ordered dictionary, like Python `d[k]`
returning `None` for a missing key. -/
def dictGet {K : Type u} {α : Type v} [DecidableEq K] : List (K × α) → K → Option α
  | [], _ => none
  | e :: rest, key => if e.1 = key then some e.2 else dictGet rest key

/-- Set a key in an insertion-ordered dictionary, like Python
`d[k] = v` / `d.update(...)`: an existing key keeps its position and is
overwritten, a new key is appended at the end. -/
def dictSet {K : Type u} {α : Type v} [DecidableEq K] : List (K × α) → K → α → List (K × α)
  | [], key, val => [(key, val)]
  | e :: rest, key, val =>
    if e.1 = key then (e.1, val) :: rest else e :: dictSet rest key val

/-- The keys of a dictionary in insertion order. -/
def dictKeys {K : Type u} {α : Type v} (d : List (K × α)) : List K := d.map Prod.fst

/-! ## Coordinate/Dimension model (SimulationBase.create_coordinates) -/

/-- A coordinate array: the ordered labels along one dimension
(numeric labels suffice for the claims considered here). -/
abbrev CoordArray := List ℚ

/-- Embeds `SimulationBase.create_coordinates` (src/pymob/simulation.py).
The Python method asserts that the number of configured dimensions
equals the number of coordinate arrays and then zips them into a dict;
the assertion failure is modelled as `Except.error`. -/
def create_coordinates (dimensions : List String) (coordinate_data : List CoordArray) :
    Except String (List (String × CoordArray)) :=
  if dimensions.length = coordinate_data.length then
    .ok (dimensions.zip coordinate_data)
  else
    .error "number of dimensions, specified in the configuration file must match the coordinate data (X) returned by the run method."

/-! ## Result assembler (SimulationBase.create_dataset_from_numpy) -/

/-- A numpy ndarray: row-major flat data plus a shape. -/
structure NDArray where
  shape : List ℕ
  data : List ℚ
deriving Repr, DecidableEq

/-- A coordinate mapping attached to a labeled array. -/
abbrev Coordinates := List (String × CoordArray)

/-- A labeled data array (model of `xr.DataArray(y, coords, name)`;
modelled from the spec insofar as xarray is an external library: the
constructor records name, coordinates and data). -/
structure DataArray where
  name : String
  coords : Coordinates
  data : List ℚ
deriving Repr, DecidableEq

/-- The slice `Y_transposed[j]` of `SimulationBase.create_dataset_from_numpy`:
after transposing the trailing (variable) axis to the front of a
row-major array, the j-th slice consists of the flat entries whose
position is congruent to `j` modulo the trailing-axis length. -/
def slice_last_axis (Y : NDArray) (j : ℕ) : List ℚ :=
  let n_vars := Y.shape.getLastD 0
  Y.data.enum.filterMap (fun p => if p.1 % n_vars = j then some p.2 else none)

/-- Embeds `SimulationBase.create_dataset_from_numpy`
(src/pymob/simulation.py): asserts that the trailing axis length equals
the number of declared data variables, then builds one labeled
`DataArray` per variable name, attaching the supplied coordinates. -/
def create_dataset_from_numpy (Y : NDArray) (Y_names : List String)
    (coordinates : Coordinates) : Except String (List DataArray) :=
  let n_vars := Y.shape.getLastD 0
  if n_vars = Y_names.length then
    .ok ((((List.range n_vars).map (slice_last_axis Y)).zip Y_names).map
      (fun p => { name := p.2, coords := coordinates, data := p.1 }))
  else
    .error "The number of datasets must be the same as the specified number of data variables declared in the settings.cfg file."

/-! ## Data scaler (SimulationBase.create_data_scaler) -/

/-- Modelled from the spec: `sklearn.preprocessing.MinMaxScaler` is an
external dependency; per the spec it is a "bounded linear rescaling
(min-max) per output variable".  `fit` records the per-column minimum
and maximum of the fitted rows. -/
structure MinMaxScaler where
  data_min : List ℚ
  data_max : List ℚ
deriving Repr, DecidableEq

/-- Modelled from the spec: `MinMaxScaler.fit` computes the columnwise
minimum and maximum over all rows of the fitted 2-D array. -/
def MinMaxScaler.fit (rows : List (List ℚ)) : MinMaxScaler :=
  match rows with
  | [] => { data_min := [], data_max := [] }
  | r :: rs =>
    { data_min := rs.foldl (fun acc row => acc.zipWith min row) r
      data_max := rs.foldl (fun acc row => acc.zipWith max row) r }

/-- Modelled from the spec: `MinMaxScaler.transform` for the default
feature range rescales column `i` linearly, mapping the fitted minimum
to 0 and the fitted maximum to 1. -/
def MinMaxScaler.transform_entry (sc : MinMaxScaler) (i : ℕ) (x : ℚ) : ℚ :=
  (x - sc.data_min.getD i 0) / (sc.data_max.getD i 0 - sc.data_min.getD i 0)

/-- Embeds `SimulationBase.create_data_scaler` (src/pymob/simulation.py):
the declared per-variable lower and upper bounds are stacked on top of
the 2-D array of observations (`np.row_stack`) and the scaler is fitted
on the stacked array. -/
def create_data_scaler (lower_bounds upper_bounds : List ℚ)
    (obs_2D_array : List (List ℚ)) : MinMaxScaler :=
  MinMaxScaler.fit (lower_bounds :: upper_bounds :: obs_2D_array)

/-! ## Seed pool (SimulationBase.draw_seed / refill_consumed_seeds) -/

/-- The mutable seed-pool state of a `SimulationBase`: the pool of
pre-drawn random integers, together with the RNG modelled as a stream
(a function from a draw counter to the drawn integer). -/
structure SeedState where
  pool : List ℕ
  stream : ℕ → ℕ
  counter : ℕ

/-- Embeds `SimulationBase.create_random_integers`: draws `n` fresh
integers from the RNG stream. -/
def create_random_integers (s : SeedState) (n : ℕ) : List ℕ × SeedState :=
  ((List.range n).map (fun i => s.stream (s.counter + i)),
    { s with counter := s.counter + n })

/-- Embeds `self._seed_buffer_size = self.config.multiprocessing.n_cores * 2`
from `SimulationBase.__init__`. -/
def seed_buffer_size (n_cores : ℕ) : ℕ := 2 * n_cores

/-- Embeds the seed-pool initialization in `SimulationBase.__init__`:
the pool starts with `2 * n_cores` pre-drawn random integers. -/
def init_seed_state (n_cores : ℕ) (stream : ℕ → ℕ) : SeedState :=
  let s0 : SeedState := { pool := [], stream := stream, counter := 0 }
  let drawn := create_random_integers s0 (seed_buffer_size n_cores)
  { drawn.2 with pool := drawn.1 }

/-- Embeds `SimulationBase.refill_consumed_seeds`: when the pool length
has dropped exactly to `n_cores`, extend the pool by
`seed_buffer_size - n_cores` freshly drawn integers; otherwise do
nothing. -/
def refill_consumed_seeds (n_cores : ℕ) (s : SeedState) : SeedState :=
  let n_seeds_left := s.pool.length
  if n_seeds_left = n_cores then
    let n_new_seeds := seed_buffer_size n_cores - n_seeds_left
    let drawn := create_random_integers s n_new_seeds
    { drawn.2 with pool := s.pool ++ drawn.1 }
  else s

/-- Embeds `SimulationBase.draw_seed`: refill if consumed, then pop the
first element of the pool (`list.pop(0)`); popping an empty pool raises
(`none`). -/
def draw_seed (n_cores : ℕ) (s : SeedState) : Option (ℕ × SeedState) :=
  let s' := refill_consumed_seeds n_cores s
  match h : s'.pool with
  | [] => none
  | seed :: rest => some (seed, { s' with pool := rest })

/-- Sequential use of the seed pool: perform `k` successive
`draw_seed` calls, failing if any of them fails. -/
def draw_n (n_cores : ℕ) : ℕ → SeedState → Option SeedState
  | 0, s => some s
  | k + 1, s =>
    match draw_seed n_cores s with
    | none => none
    | some d => draw_n n_cores k d.2

/-! ## Evaluator dispatch (SimulationBase.dispatch / parameterize) -/

/-- A free parameter as passed to `parameterize`: a name and its
current value. -/
structure Param (α : Type u) where
  name : String
  value : α
deriving Repr, DecidableEq

/-- The `ModelParameters` mapping with its two required keys
`parameters` and `y0`. -/
structure ModelParameters (α : Type u) where
  parameters : List (String × α)
  y0 : List (String × α)
deriving Repr, DecidableEq

/-- Embeds the static method `SimulationBase.parameterize`
(src/pymob/simulation.py): merges the values of the free parameters
into the fixed parameter mapping by name via `parameters.update` over
the comprehension of name/value pairs, leaving `y0` unchanged.  No name
check of any kind is performed. -/
def parameterize {α : Type u} (free_parameters : List (Param α))
    (model_parameters : ModelParameters α) : ModelParameters α :=
  { parameters :=
      free_parameters.foldl (fun ps p => dictSet ps p.name p.value)
        model_parameters.parameters
    y0 := model_parameters.y0 }

/-- Modelled from the spec: the `Evaluator` class lives in
`pymob.sim.evaluator`, which is not part of the sources; only the
fields relevant to dispatch are kept (the resolved `ModelParameters`,
the dimension order and the stochastic flag). -/
structure Evaluator (α : Type u) where
  parameters : ModelParameters α
  dimensions : List String
  stochastic : Bool
deriving Repr, DecidableEq

/-- The slice of the simulation context consumed by `dispatch`: the
fixed model parameters, the declared free-parameter names, the
dimension order and the model type. -/
structure Simulation (α : Type u) where
  model_parameters : ModelParameters α
  free_parameter_names : List String
  dimensions : List String
  modeltype : String

/-- Embeds `SimulationBase.dispatch` (src/pymob/simulation.py): resolves
`ModelParameters` via `parameterize` and constructs an `Evaluator`
from them.  The construction is total: no validation of the names in
`theta` against the declared free parameters happens anywhere on this
path. -/
def dispatch {α : Type u} (sim : Simulation α) (theta : List (Param α)) : Evaluator α :=
  { parameters := parameterize theta sim.model_parameters
    dimensions := sim.dimensions
    stochastic := sim.modeltype = "stochastic" }

/-! ## JaxSolver (src/pymob/solvers/diffrax.py) -/

/-- A solver output value: either a finite number or the positive
infinity sentinel produced on divergence. -/
inductive XVal where
  | val (q : ℚ)
  | inf
deriving Repr, DecidableEq

/-- The PID step-size controller configuration as constructed inside
`JaxSolver.odesolve`: tolerances, PID coefficients and the forced jump
times (`jump_ts`), mirroring the arguments passed to
`diffrax.PIDController`. -/
structure PIDController where
  rtol : ℚ
  atol : ℚ
  pcoeff : ℚ
  icoeff : ℚ
  dcoeff : ℚ
  jump_ts : Option (List ℚ)
deriving Repr, DecidableEq

/-- Modelled from the spec: the outcome of one adaptive-step
integration is external numerical behaviour (diffrax), abstracted here
as an oracle: the number of solver steps the problem needs, the time
at which the step budget would run out, and the trajectory of the
state variables as a function of time. -/
structure OdeDynamics where
  steps_needed : ℕ
  break_time : ℚ
  sol : ℚ → List ℚ

/-- The solver-divergence fault raised by diffrax when the maximum
step count is exceeded and `throw` is set. -/
inductive SolverFault where
  | max_steps_reached
deriving Repr, DecidableEq

/-- Modelled from the spec: `diffrax.diffeqsolve` is an external
dependency.  Per the spec (failure policy) and the comment in
`JaxSolver.odesolve`: if the integration exceeds `max_steps` before
reaching the final time, then with `throw` set a solver-divergence
fault is raised, and otherwise the solve completes, returning
`+infinity` for all state values at and after the failing time.  The
saved output is one row of state values per requested save time. -/
def diffeqsolve (dyn : OdeDynamics) (t0 t1 : ℚ) (saveat : List ℚ)
    (stepsize_controller : PIDController) (max_steps : ℕ) (throw : Bool) :
    Except SolverFault (List (List XVal)) :=
  if dyn.steps_needed ≤ max_steps then
    .ok (saveat.map (fun t => (dyn.sol t).map XVal.val))
  else if throw then
    .error .max_steps_reached
  else
    .ok (saveat.map (fun t =>
      if dyn.break_time ≤ t then (dyn.sol t).map (fun _ => XVal.inf)
      else (dyn.sol t).map XVal.val))

/-- The immutable `JaxSolver` configuration (frozen dataclass in
src/pymob/solvers/diffrax.py) together with the fields it inherits
from `SolverBase` that `odesolve`/`solve` read; `SolverBase` is not
part of the sources, so those inherited fields (`x`, the time
coordinates; the `x_in` time coordinates; the argument-name partition;
the post-processing hook) are modelled from the spec. -/
structure JaxSolver where
  rtol : ℚ := 1 / 1000000
  atol : ℚ := 1 / 10000000
  pcoeff : ℚ := 0
  icoeff : ℚ := 1
  dcoeff : ℚ := 0
  max_steps : ℕ := 100000
  throw_exception : Bool := true
  x : List ℚ := []
  coordinates_input_vars_x_in : List ℚ := []
  ode_arg_names : List String := []
  pp_arg_names : List String := []
  post_processing : List (String × List XVal) → List ℚ →
    Option (List ℚ × List ℚ) → List ℚ → List (String × List XVal) :=
    fun res _ _ _ => res

/-- Embeds the computation of `jumps` inside `JaxSolver.odesolve`:
when forcing data is present, the entries of `x_in[0]` are selected by
the boolean mask of forcing time coordinates strictly below the last
solved time coordinate; with no forcing, no jump times are imposed. -/
def JaxSolver.odesolve_jumps (s : JaxSolver) (x_in : List (List ℚ)) : Option (List ℚ) :=
  if 0 < x_in.length then
    some (((x_in.headD []).zip s.coordinates_input_vars_x_in).filterMap
      (fun p => if p.2 < s.x.getLastD 0 then some p.1 else none))
  else
    none

/-- The jump-time set as described by the spec sentence for the claim
comparison: the forcing breakpoints restricted to the closed solved
time range from the first to the last time coordinate. -/
def spec_jump_times (breakpoints : List ℚ) (x : List ℚ) : List ℚ :=
  breakpoints.filter (fun t => decide (x.headD 0 ≤ t) && decide (t ≤ x.getLastD 0))

/-- Embeds `JaxSolver.odesolve` (src/pymob/solvers/diffrax.py): builds
the linear interpolation of the forcing (when present), the forced
jump times, and the PID step-size controller, then calls
`diffeqsolve` from the first to the last time coordinate, saving at
every time coordinate, with the configured `max_steps` and with
`throw` equal to the configured `throw_exception` policy. -/
def JaxSolver.odesolve (s : JaxSolver) (dyn : OdeDynamics) (y0 : List ℚ)
    (args : List ℚ) (x_in : List (List ℚ)) :
    Except SolverFault (List (List XVal) × Option (List ℚ × List ℚ)) := do
  let interp : Option (List ℚ × List ℚ) :=
    if 0 < x_in.length then some (x_in.headD [], x_in.getD 1 []) else none
  let stepsize_controller : PIDController :=
    { rtol := s.rtol, atol := s.atol, pcoeff := s.pcoeff, icoeff := s.icoeff,
      dcoeff := s.dcoeff, jump_ts := s.odesolve_jumps x_in }
  let t_min := s.x.headD 0
  let t_max := s.x.getLastD 0
  let sol ← diffeqsolve dyn t_min t_max s.x stepsize_controller s.max_steps
    s.throw_exception
  pure (sol, interp)

/-- Embeds `JaxSolver.odesolve_splitargs` composed with the result
packing of `JaxSolver.solve` for one batch element: run `odesolve`,
key the per-state trajectories by the ODE state names, and apply the
post-processing hook. -/
def JaxSolver.odesolve_splitargs (s : JaxSolver) (dyn : OdeDynamics)
    (odestates : List String) (y0 : List ℚ) (odeargs : List ℚ)
    (ppargs : List ℚ) (x_in : List (List ℚ)) :
    Except SolverFault (List (String × List XVal)) := do
  let r ← s.odesolve dyn y0 odeargs x_in
  let res_dict := odestates.enum.map
    (fun p => (p.2, r.1.map (fun row => row.getD p.1 XVal.inf)))
  pure (s.post_processing res_dict s.x r.2 ppargs)

/-- Embeds `JaxSolver.solve` (src/pymob/solvers/diffrax.py): preprocess
the named parameter / initial-state / forcing mappings into positional
tuples (the `SolverBase` preprocessing, modelled from the spec as
name-keyed selection), vectorize the per-element solve across the
batch axis (`jax.vmap` modelled as mapping over batch indices), and
collect the per-variable results.  The function is a pure function of
the solver configuration, the integration oracle and the inputs; it
has no random input. -/
def JaxSolver.solve (s : JaxSolver) (dyn : OdeDynamics)
    (parameters : List (String × List ℚ)) (y0 : List (String × List ℚ))
    (x_in : List (List (List ℚ))) :
    Except SolverFault (List (String × List (List XVal))) := do
  let n_batch := (y0.headD ("", [])).2.length
  let odestates := y0.map Prod.fst
  let results ← (List.range n_batch).mapM (fun b =>
    let y0_b := y0.map (fun p => p.2.getD b 0)
    let ode_args_b := s.ode_arg_names.map
      (fun n => ((dictGet parameters n).getD []).getD b 0)
    let pp_args_b := s.pp_arg_names.map
      (fun n => ((dictGet parameters n).getD []).getD b 0)
    let x_in_b := x_in.map (fun series => series.getD b [])
    s.odesolve_splitargs dyn odestates y0_b ode_args_b pp_args_b x_in_b)
  let names := (results.headD []).map Prod.fst
  pure (names.map (fun n => (n, results.map (fun r => (dictGet r n).getD []))))

/-! ## Parameter/Input flattener (flatten_parameter_dict)

Python strings are modelled as lists of characters so that the
separator handling of `subpar.split("___")` and `f"{par}___{i}"` can
be reasoned about by structural induction. -/

/-- A Python string, modelled as its list of characters. -/
abbrev PyStr := List Char

/-- The `"___"` separator used by `flatten_parameter_dict`. -/
def underscore3 : PyStr := ['_', '_', '_']

/-- A numpy scalar float value: a number or NaN. -/
inductive FVal where
  | nan
  | num (q : ℚ)
deriving Repr, DecidableEq

/-- A parameter value in the model-parameter dictionary: a scalar
float or a (fixed-length) float vector. -/
inductive PVal where
  | scalar (v : FVal)
  | vector (vs : List FVal)
deriving Repr, DecidableEq

instance : Inhabited FVal := ⟨.nan⟩

instance : Inhabited PVal := ⟨.scalar .nan⟩

/-- The decimal digit character for a value below ten. -/
def decDigit (n : ℕ) : Char :=
  match n with
  | 0 => '0'
  | 1 => '1'
  | 2 => '2'
  | 3 => '3'
  | 4 => '4'
  | 5 => '5'
  | 6 => '6'
  | 7 => '7'
  | 8 => '8'
  | _ => '9'

/-- Fuel-driven digit accumulation (structural recursion so that the
kernel can evaluate it); with fuel above the number of digits it
produces the standard decimal notation. -/
def natDigitsCore : ℕ → ℕ → PyStr → PyStr
  | 0, _, acc => acc
  | fuel + 1, n, acc =>
    if n < 10 then decDigit n :: acc
    else natDigitsCore fuel (n / 10) (decDigit (n % 10) :: acc)

/-- Python `str(i)` for a natural number: standard decimal notation. -/
def natDigits (n : ℕ) : PyStr := natDigitsCore (n + 1) n []

/-- The numeric value of a decimal digit character, if it is one. -/
def digitVal? (c : Char) : Option ℕ :=
  if '0' ≤ c ∧ c ≤ '9' then some (c.toNat - 48) else none

/-- The value of a digit string (empty input gives `some 0`; emptiness
is checked separately by the caller). -/
def digitsVal (s : PyStr) : Option ℕ :=
  s.foldlM (fun acc c => (digitVal? c).map (fun d => acc * 10 + d)) 0

/-- Python `int(s)` restricted to an optional sign followed by decimal
digits; anything else raises `ValueError` (`none`). -/
def pyInt? (s : PyStr) : Option ℤ :=
  match s with
  | [] => none
  | c :: rest =>
    if c = '-' then
      if rest = [] then none else (digitsVal rest).map (fun n => -(n : ℤ))
    else if c = '+' then
      if rest = [] then none else (digitsVal rest).map (fun n => (n : ℤ))
    else
      (digitsVal s).map (fun n => (n : ℤ))

/-- Python `s.split("___")`: split on non-overlapping occurrences of
the three-underscore separator, scanning left to right. -/
def pySplit3 : PyStr → List PyStr
  | [] => [[]]
  | '_' :: '_' :: '_' :: rest => [] :: pySplit3 rest
  | c :: rest =>
    match pySplit3 rest with
    | [] => [[c]]
    | g :: gs => (c :: g) :: gs

/-- Whether the string contains an occurrence of the `"___"`
separator. -/
def hasSep3 : PyStr → Bool
  | [] => false
  | '_' :: '_' :: '_' :: _ => true
  | _ :: rest => hasSep3 rest

/-- A parameter name that round-trips through the flat-key encoding:
it contains no `"___"` occurrence and does not end in an underscore. -/
def cleanName (s : PyStr) : Bool :=
  !hasSep3 s && !(decide (s.getLast? = some '_'))

/-- The flat key `f"{par}___{i}"` generated for index `i` of the
vector parameter `par`. -/
def flatKey (par : PyStr) (i : ℕ) : PyStr := par ++ underscore3 ++ natDigits i

/-- The NaN-filled placeholder recorded in `empty_map` for one
parameter value (`np.full_like(value, np.nan)` for vectors, `np.nan`
for scalars). -/
def nanTemplate : PVal → PVal
  | .scalar _ => .scalar .nan
  | .vector vs => .vector (vs.map (fun _ => .nan))

/-- The flat entries that `flatten_parameter_dict` generates for one
parameter: scalars pass through under their own name, a vector of
length k expands into k entries keyed by `flatKey`. -/
def flatEntries (pv : PyStr × PVal) : List (PyStr × FVal) :=
  match pv.2 with
  | .scalar v => [(pv.1, v)]
  | .vector vs => vs.enum.map (fun iv => (flatKey pv.1 iv.1, iv.2))

/-- One iteration of the loop of `flatten_parameter_dict`: skip an
excluded name; otherwise expand a vector into indexed flat entries and
record a NaN-array template, or pass a scalar through and record a NaN
scalar template when the name is not yet present. -/
def flattenStep (exclude_params : List PyStr)
    (acc : List (PyStr × FVal) × List (PyStr × PVal)) (pv : PyStr × PVal) :
    List (PyStr × FVal) × List (PyStr × PVal) :=
  if pv.1 ∈ exclude_params then acc
  else
    match pv.2 with
    | .scalar v =>
      (dictSet acc.1 pv.1 v,
        if (dictGet acc.2 pv.1).isSome then acc.2
        else dictSet acc.2 pv.1 (.scalar .nan))
    | .vector vs =>
      (vs.enum.foldl (fun f iv => dictSet f (flatKey pv.1 iv.1) iv.2) acc.1,
        dictSet acc.2 pv.1 (.vector (vs.map (fun _ => .nan))))

/-- Embeds the first half of `flatten_parameter_dict`
(src/pymob/simulation.py): one pass over the parameter dictionary that
builds the flat parameter dict (`flat_params`) and the NaN template
dict (`empty_map`), skipping excluded names. -/
def flattenPass (parameters : List (PyStr × PVal)) (exclude_params : List PyStr) :
    List (PyStr × FVal) × List (PyStr × PVal) :=
  parameters.foldl (flattenStep exclude_params) ([], [])

/-- Python exceptions raised inside `reverse_mapper`. -/
inductive PyError where
  | valueError
  | keyError
  | typeError
  | indexError
deriving Repr, DecidableEq

/-- Embeds the closure `reverse_mapper` returned by
`flatten_parameter_dict`: starting from a copy of `empty_map`, each
flat entry is written back.  Keys splitting into two parts on `"___"`
index into the named vector (Python negative indexing included; a
non-numeric index raises `ValueError`, a missing name `KeyError`,
indexing into a scalar `TypeError`, an out-of-range index
`IndexError`); keys with no separator are assigned directly; keys
splitting into three or more parts fail the two-element unpacking
(`ValueError`). -/
def reverseStep (param_dict : List (PyStr × PVal)) (sv : PyStr × FVal) :
    Except PyError (List (PyStr × PVal)) :=
  match pySplit3 sv.1 with
  | [par] => .ok (dictSet param_dict par (.scalar sv.2))
  | [par, par_index] =>
    match pyInt? par_index with
    | none => .error .valueError
    | some idx =>
      match dictGet param_dict par with
      | none => .error .keyError
      | some (.scalar _) => .error .typeError
      | some (.vector vs) =>
        let j : ℤ := if idx < 0 then idx + vs.length else idx
        if 0 ≤ j ∧ j < (vs.length : ℤ) then
          .ok (dictSet param_dict par (.vector (vs.set j.toNat sv.2)))
        else .error .indexError
  | _ => .error .valueError

/-- See `reverseStep` for the per-entry write-back semantics. -/
def reverseMapper (empty_map : List (PyStr × PVal)) (flat : List (PyStr × FVal)) :
    Except PyError (List (PyStr × PVal)) :=
  flat.foldlM reverseStep empty_map

/-- Embeds `flatten_parameter_dict` (src/pymob/simulation.py): returns
the flat parameter dict together with the back-transformation
closure. -/
def flatten_parameter_dict (model_parameter_dict : List (PyStr × PVal))
    (exclude_params : List PyStr) :
    List (PyStr × FVal) × (List (PyStr × FVal) → Except PyError (List (PyStr × PVal))) :=
  let fe := flattenPass model_parameter_dict exclude_params
  (fe.1, fun flat => reverseMapper fe.2 flat)

/-- A partial flat mapping: the restriction of a flat dict to the keys
satisfying `P` (every sub-dictionary of a flat dict with distinct keys
has this form). -/
def filterFlat (P : PyStr → Bool) (flat : List (PyStr × FVal)) : List (PyStr × FVal) :=
  flat.filter (fun e => P e.1)

/-- The expected reconstruction of one parameter entry from a partial
flat mapping whose retained keys are those satisfying `P`: the entry
holds the supplied value at each retained flat key and NaN
otherwise. -/
def reconEntry (P : PyStr → Bool) (pv : PyStr × PVal) : PyStr × PVal :=
  (pv.1,
    match pv.2 with
    | .scalar v => if P pv.1 then PVal.scalar v else .scalar .nan
    | .vector vs =>
      .vector (vs.enum.map (fun iv => if P (flatKey pv.1 iv.1) then iv.2 else .nan)))

/-- The expected reconstruction from a partial flat mapping: the
original nested shape restricted to non-excluded names, where each
entry holds the supplied value when its flat key is retained by `P`
and NaN otherwise. -/
def reconstruct (P : PyStr → Bool) (parameters : List (PyStr × PVal))
    (exclude_params : List PyStr) : List (PyStr × PVal) :=
  (parameters.filter (fun pv => decide (pv.1 ∉ exclude_params))).map (reconEntry P)

/-- The flat dict built by `flattenPass`, written as the concatenation
of the per-parameter flat entries of the non-excluded parameters. -/
def flatOf (parameters : List (PyStr × PVal)) (exclude_params : List PyStr) :
    List (PyStr × FVal) :=
  (parameters.filter (fun pv => decide (pv.1 ∉ exclude_params))).flatMap flatEntries

/-- The NaN template dict built by `flattenPass`, written as the list
of per-parameter NaN placeholders of the non-excluded parameters. -/
def templateOf (parameters : List (PyStr × PVal)) (exclude_params : List PyStr) :
    List (PyStr × PVal) :=
  (parameters.filter (fun pv => decide (pv.1 ∉ exclude_params))).map
    (fun pv => (pv.1, nanTemplate pv.2))

/-- Writing a list of indexed values into a list
(`param_dict[par][i] = value` repeated). -/
def setMany (cur : List FVal) (ents : List (ℕ × FVal)) : List FVal :=
  ents.foldl (fun c iv => c.set iv.1 iv.2) cur

/-- A concrete simulation context with two declared free parameters,
used to witness the dispatch claims. -/
def exampleSimulation : Simulation ℚ :=
  { model_parameters :=
      { parameters := [("alpha", 1), ("beta", 2)], y0 := [("cext", 1000)] }
    free_parameter_names := ["alpha", "beta"]
    dimensions := ["time"]
    modeltype := "deterministic" }

/-- Decidable equality of `Except` results (both components decide). -/
instance instDecEqExcept {ε : Type u} {α : Type v} [DecidableEq ε] [DecidableEq α] :
    DecidableEq (Except ε α)
  | .error e, .error f =>
    if h : e = f then .isTrue (by rw [h])
    else .isFalse (by intro hc; injection hc; contradiction)
  | .error _, .ok _ => .isFalse (by intro hc; injection hc)
  | .ok _, .error _ => .isFalse (by intro hc; injection hc)
  | .ok a, .ok b =>
    if h : a = b then .isTrue (by rw [h])
    else .isFalse (by intro hc; injection hc; contradiction)

/-! ## Dictionary lemmas -/

theorem dictGet_eq_none {K : Type u} {α : Type v} [DecidableEq K]
    (d : List (K × α)) (k : K) (h : k ∉ dictKeys d) : dictGet d k = none := by
  induction d with
  | nil => rfl
  | cons e rest ih =>
    simp only [dictKeys, List.map_cons, List.mem_cons, not_or] at h
    have hne : e.1 ≠ k := fun he => h.1 he.symm
    simp only [dictGet, if_neg hne]
    exact ih (by simpa [dictKeys] using h.2)

theorem dictGet_dictSet_self {K : Type u} {α : Type v} [DecidableEq K]
    (d : List (K × α)) (k : K) (v : α) : dictGet (dictSet d k v) k = some v := by
  induction d with
  | nil => simp [dictGet, dictSet]
  | cons e rest ih =>
    by_cases h : e.1 = k
    · simp [dictSet, dictGet, h]
    · simp [dictSet, dictGet, h, ih]

theorem dictGet_dictSet_ne {K : Type u} {α : Type v} [DecidableEq K]
    (d : List (K × α)) (k key : K) (v : α) (hne : k ≠ key) :
    dictGet (dictSet d k v) key = dictGet d key := by
  induction d with
  | nil => simp [dictGet, dictSet, hne]
  | cons e rest ih =>
    by_cases h : e.1 = k
    · simp [dictSet, dictGet, h, hne]
    · simp only [dictSet, if_neg h]
      by_cases h2 : e.1 = key
      · simp [dictGet, h2]
      · simp [dictGet, h2, ih]

theorem dictSet_fresh {K : Type u} {α : Type v} [DecidableEq K]
    (d : List (K × α)) (k : K) (v : α) (h : k ∉ dictKeys d) :
    dictSet d k v = d ++ [(k, v)] := by
  induction d with
  | nil => rfl
  | cons e rest ih =>
    simp only [dictKeys, List.map_cons, List.mem_cons, not_or] at h
    have hne : e.1 ≠ k := fun he => h.1 he.symm
    simp only [dictSet, if_neg hne, List.cons_append, List.cons.injEq, true_and]
    exact ih (by simpa [dictKeys] using h.2)

theorem dictGet_append_right {K : Type u} {α : Type v} [DecidableEq K]
    (d₁ d₂ : List (K × α)) (k : K) (h : k ∉ dictKeys d₁) :
    dictGet (d₁ ++ d₂) k = dictGet d₂ k := by
  induction d₁ with
  | nil => rfl
  | cons e rest ih =>
    simp only [dictKeys, List.map_cons, List.mem_cons, not_or] at h
    have hne : e.1 ≠ k := fun he => h.1 he.symm
    rw [List.cons_append]
    simp only [dictGet, if_neg hne]
    exact ih (by simpa [dictKeys] using h.2)

theorem dictSet_append_mid {K : Type u} {α : Type v} [DecidableEq K]
    (d₁ d₂ : List (K × α)) (k : K) (x y : α) (h : k ∉ dictKeys d₁) :
    dictSet (d₁ ++ (k, x) :: d₂) k y = d₁ ++ (k, y) :: d₂ := by
  induction d₁ with
  | nil => simp [dictSet]
  | cons e rest ih =>
    simp only [dictKeys, List.map_cons, List.mem_cons, not_or] at h
    have hne : e.1 ≠ k := fun he => h.1 he.symm
    rw [List.cons_append, List.cons_append]
    simp only [dictSet, if_neg hne, List.cons.injEq, true_and]
    exact ih (by simpa [dictKeys] using h.2)

theorem dictSet_dictSet_self {K : Type u} {α : Type v} [DecidableEq K]
    (d : List (K × α)) (k : K) (x y : α) :
    dictSet (dictSet d k x) k y = dictSet d k y := by
  induction d with
  | nil => simp [dictSet]
  | cons e rest ih =>
    by_cases h : e.1 = k
    · simp [dictSet, h]
    · simp [dictSet, h, ih]

theorem dictSet_eq_self {K : Type u} {α : Type v} [DecidableEq K]
    (d : List (K × α)) (k : K) (v : α) (h : dictGet d k = some v) :
    dictSet d k v = d := by
  induction d with
  | nil => simp [dictGet] at h
  | cons e rest ih =>
    by_cases he : e.1 = k
    · simp only [dictGet, if_pos he] at h
      injection h with h2
      simp only [dictSet, if_pos he, ← h2]
    · simp only [dictGet, if_neg he] at h
      simp [dictSet, he, ih h]

theorem dictGet_zip {K : Type u} {α : Type v} [DecidableEq K] :
    ∀ (ks : List K) (vs : List α), ks.Nodup →
      ∀ (i : ℕ) (hk : i < ks.length) (hv : i < vs.length),
        dictGet (ks.zip vs) (ks.get ⟨i, hk⟩) = some (vs.get ⟨i, hv⟩)
  | [], _, _, i, hk, _ => absurd hk (by simp)
  | _ :: _, [], _, i, _, hv => absurd hv (by simp)
  | k :: ks, v :: vs, hnd, 0, hk, hv => by simp [dictGet]
  | k :: ks, v :: vs, hnd, i + 1, hk, hv => by
    have hik : i < ks.length := by simpa using hk
    have hiv : i < vs.length := by simpa using hv
    have hmem : ks.get ⟨i, hik⟩ ∈ ks := List.get_mem ks i hik
    have hne : (ks.get ⟨i, hik⟩ : K) ≠ k :=
      fun he => (List.nodup_cons.mp hnd).1 (he ▸ hmem)
    have hstep : dictGet (ks.zip vs) (ks.get ⟨i, hik⟩) = some (vs.get ⟨i, hiv⟩) :=
      dictGet_zip ks vs (List.nodup_cons.mp hnd).2 i hik hiv
    simp only [List.zip_cons_cons, List.get_cons_succ, dictGet]
    rw [if_neg (fun he => hne he.symm)]
    exact hstep

/-! ## C6: coordinate model -/

/-- C6: for every list of coordinate arrays whose length differs from
the number of declared simulation dimensions, `create_coordinates`
raises a fatal configuration error; when the lengths are equal it
returns the mapping from each dimension name to its coordinate
array. -/
theorem create_coordinates_spec (dims : List String) (cdata : List CoordArray) :
    (dims.length ≠ cdata.length →
      ∃ msg, create_coordinates dims cdata = .error msg) ∧
    (dims.length = cdata.length →
      create_coordinates dims cdata = .ok (dims.zip cdata) ∧
      (dims.Nodup → ∀ (i : ℕ) (hd : i < dims.length) (hc : i < cdata.length),
        dictGet (dims.zip cdata) (dims.get ⟨i, hd⟩) = some (cdata.get ⟨i, hc⟩))) := by
  constructor
  · intro hne
    unfold create_coordinates
    rw [if_neg hne]
    exact ⟨_, rfl⟩
  · intro heq
    refine ⟨by simp [create_coordinates, heq], ?_⟩
    intro hnd i hd hc
    exact dictGet_zip dims cdata hnd i hd hc

/-- Witness for C6 at concrete inputs: two declared dimensions with one
coordinate array fail; with two coordinate arrays the zipped mapping is
returned and is keyed by dimension name. -/
theorem create_coordinates_spec_witness :
    (∃ msg, create_coordinates ["time", "id"] [[0, 1]] = .error msg) ∧
    create_coordinates ["time", "id"] [[0, 1], [5]] =
      .ok [("time", [0, 1]), ("id", [5])] ∧
    dictGet ([("time", [0, 1]), ("id", [5])] : List (String × CoordArray)) "id" =
      some [5] := by
  refine ⟨(create_coordinates_spec ["time", "id"] [[0, 1]]).1 (by decide), ?_, ?_⟩
  · have h := ((create_coordinates_spec ["time", "id"] [[0, 1], [5]]).2 rfl).1
    simpa using h
  · have h := ((create_coordinates_spec ["time", "id"] [[0, 1], [5]]).2 rfl).2
      (by decide) 1 (by decide) (by decide)
    simpa using h

/-! ## C7: result assembler -/

/-- C7: for every raw numeric array and list of variable names, the
array-path result assembler succeeds exactly when the array's trailing
axis length equals the number of names, and on success produces a
labeled dataset with one variable per name carrying the supplied
coordinates. -/
theorem create_dataset_from_numpy_spec (Y : NDArray) (Y_names : List String)
    (coordinates : Coordinates) (hsh : Y.shape ≠ []) :
    ((∃ ds, create_dataset_from_numpy Y Y_names coordinates = .ok ds) ↔
      Y.shape.getLastD 0 = Y_names.length) ∧
    (∀ ds, create_dataset_from_numpy Y Y_names coordinates = .ok ds →
      ds.map DataArray.name = Y_names ∧ ∀ da ∈ ds, da.coords = coordinates) := by
  by_cases h : Y.shape.getLastD 0 = Y_names.length
  · refine ⟨⟨fun _ => h, fun _ =>
      ⟨_, by simp only [create_dataset_from_numpy]; rw [if_pos h]⟩⟩, ?_⟩
    intro ds hds
    simp only [create_dataset_from_numpy] at hds
    rw [if_pos h] at hds
    rw [Except.ok.injEq] at hds
    subst hds
    constructor
    · rw [List.map_map]
      have hlen : Y_names.length ≤ ((List.range (Y.shape.getLastD 0)).map
          (slice_last_axis Y)).length := by
        rw [List.length_map, List.length_range, h]
      have : (DataArray.name ∘ fun p : List ℚ × String =>
          ({ name := p.2, coords := coordinates, data := p.1 } : DataArray)) =
          Prod.snd := rfl
      rw [this]
      exact List.map_snd_zip _ _ hlen
    · intro da hda
      obtain ⟨p, _, hp⟩ := List.mem_map.mp hda
      rw [← hp]
  · refine ⟨⟨?_, fun hc => absurd hc h⟩, ?_⟩
    · rintro ⟨ds, hds⟩
      simp only [create_dataset_from_numpy] at hds
      rw [if_neg h] at hds
      exact absurd hds (by simp)
    · intro ds hds
      simp only [create_dataset_from_numpy] at hds
      rw [if_neg h] at hds
      exact absurd hds (by simp)

/-- Witness for C7 at concrete inputs: a 4 by 3 array with 3 names
succeeds and yields one variable per name carrying the supplied
coordinates; a 4 by 2 array with the same 3 names fails. -/
theorem create_dataset_from_numpy_spec_witness :
    (∃ ds, create_dataset_from_numpy
      { shape := [4, 3], data := [0, 1, 2, 3, 4, 5, 6, 7, 8, 9, 10, 11] }
      ["rna", "cint", "cext"] [("time", [0, 1, 2, 3])] = .ok ds ∧
      ds.map DataArray.name = ["rna", "cint", "cext"] ∧
      ∀ da ∈ ds, da.coords = [("time", [0, 1, 2, 3])]) ∧
    ¬∃ ds, create_dataset_from_numpy
      { shape := [4, 2], data := [0, 1, 2, 3, 4, 5, 6, 7] }
      ["rna", "cint", "cext"] [("time", [0, 1, 2, 3])] = .ok ds := by
  constructor
  · obtain ⟨ds, hds⟩ := (create_dataset_from_numpy_spec
      { shape := [4, 3], data := [0, 1, 2, 3, 4, 5, 6, 7, 8, 9, 10, 11] }
      ["rna", "cint", "cext"] [("time", [0, 1, 2, 3])] (by decide)).1.mpr (by decide)
    have hprops := (create_dataset_from_numpy_spec
      { shape := [4, 3], data := [0, 1, 2, 3, 4, 5, 6, 7, 8, 9, 10, 11] }
      ["rna", "cint", "cext"] [("time", [0, 1, 2, 3])] (by decide)).2 ds hds
    exact ⟨ds, hds, hprops⟩
  · intro hex
    have h := (create_dataset_from_numpy_spec
      { shape := [4, 2], data := [0, 1, 2, 3, 4, 5, 6, 7] }
      ["rna", "cint", "cext"] [("time", [0, 1, 2, 3])] (by decide)).1.mp hex
    exact absurd h (by decide)

/-! ## C5: data scaler -/

theorem getD_zipWith (f : ℚ → ℚ → ℚ) (a b : List ℚ) (i : ℕ)
    (ha : i < a.length) (hb : i < b.length) :
    (List.zipWith f a b).getD i 0 = f (a.getD i 0) (b.getD i 0) := by
  have hz : i < (List.zipWith f a b).length := by
    rw [List.length_zipWith]
    exact lt_min ha hb
  rw [List.getD_eq_getElem _ _ hz, List.getD_eq_getElem _ _ ha,
    List.getD_eq_getElem _ _ hb, List.getElem_zipWith]

theorem foldl_zipWith_length (f : ℚ → ℚ → ℚ) :
    ∀ (rows : List (List ℚ)) (acc : List ℚ),
      (∀ r ∈ rows, r.length = acc.length) →
      (rows.foldl (fun a r => a.zipWith f r) acc).length = acc.length
  | [], acc, _ => rfl
  | r :: rs, acc, hrect => by
    have hr : r.length = acc.length := hrect r (by simp)
    have hacc : (List.zipWith f acc r).length = acc.length := by
      rw [List.length_zipWith, hr, min_self]
    simp only [List.foldl_cons]
    rw [foldl_zipWith_length f rs (List.zipWith f acc r)
      (fun q hq => by rw [hacc]; exact hrect q (by simp [hq]))]
    exact hacc

theorem foldl_zipWith_min_le :
    ∀ (rows : List (List ℚ)) (acc : List ℚ) (i : ℕ), i < acc.length →
      (∀ r ∈ rows, r.length = acc.length) →
      (rows.foldl (fun a r => a.zipWith min r) acc).getD i 0 ≤ acc.getD i 0
  | [], acc, i, _, _ => le_refl _
  | r :: rs, acc, i, hi, hrect => by
    have hr : r.length = acc.length := hrect r (by simp)
    have hacc : (List.zipWith min acc r).length = acc.length := by
      rw [List.length_zipWith, hr, min_self]
    simp only [List.foldl_cons]
    have hstep := foldl_zipWith_min_le rs (List.zipWith min acc r) i
      (by rw [hacc]; exact hi)
      (fun q hq => by rw [hacc]; exact hrect q (by simp [hq]))
    refine le_trans hstep ?_
    rw [getD_zipWith min acc r i hi (by rw [hr]; exact hi)]
    exact min_le_left _ _

theorem foldl_zipWith_max_ge :
    ∀ (rows : List (List ℚ)) (acc : List ℚ) (i : ℕ), i < acc.length →
      (∀ r ∈ rows, r.length = acc.length) →
      acc.getD i 0 ≤ (rows.foldl (fun a r => a.zipWith max r) acc).getD i 0
  | [], acc, i, _, _ => le_refl _
  | r :: rs, acc, i, hi, hrect => by
    have hr : r.length = acc.length := hrect r (by simp)
    have hacc : (List.zipWith max acc r).length = acc.length := by
      rw [List.length_zipWith, hr, min_self]
    simp only [List.foldl_cons]
    have hstep := foldl_zipWith_max_ge rs (List.zipWith max acc r) i
      (by rw [hacc]; exact hi)
      (fun q hq => by rw [hacc]; exact hrect q (by simp [hq]))
    refine le_trans ?_ hstep
    rw [getD_zipWith max acc r i hi (by rw [hr]; exact hi)]
    exact le_max_left _ _

theorem foldl_zipWith_min_eq :
    ∀ (rows : List (List ℚ)) (acc : List ℚ) (i : ℕ), i < acc.length →
      (∀ r ∈ rows, r.length = acc.length) →
      (∀ r ∈ rows, acc.getD i 0 ≤ r.getD i 0) →
      (rows.foldl (fun a r => a.zipWith min r) acc).getD i 0 = acc.getD i 0
  | [], acc, i, _, _, _ => rfl
  | r :: rs, acc, i, hi, hrect, hle => by
    have hr : r.length = acc.length := hrect r (by simp)
    have hacc : (List.zipWith min acc r).length = acc.length := by
      rw [List.length_zipWith, hr, min_self]
    have hentry : (List.zipWith min acc r).getD i 0 = acc.getD i 0 := by
      rw [getD_zipWith min acc r i hi (by rw [hr]; exact hi)]
      exact min_eq_left (hle r (by simp))
    simp only [List.foldl_cons]
    rw [foldl_zipWith_min_eq rs (List.zipWith min acc r) i
      (by rw [hacc]; exact hi)
      (fun q hq => by rw [hacc]; exact hrect q (by simp [hq]))
      (fun q hq => by rw [hentry]; exact hle q (by simp [hq]))]
    exact hentry

theorem foldl_zipWith_max_eq :
    ∀ (rows : List (List ℚ)) (acc : List ℚ) (i : ℕ), i < acc.length →
      (∀ r ∈ rows, r.length = acc.length) →
      (∀ r ∈ rows, r.getD i 0 ≤ acc.getD i 0) →
      (rows.foldl (fun a r => a.zipWith max r) acc).getD i 0 = acc.getD i 0
  | [], acc, i, _, _, _ => rfl
  | r :: rs, acc, i, hi, hrect, hle => by
    have hr : r.length = acc.length := hrect r (by simp)
    have hacc : (List.zipWith max acc r).length = acc.length := by
      rw [List.length_zipWith, hr, min_self]
    have hentry : (List.zipWith max acc r).getD i 0 = acc.getD i 0 := by
      rw [getD_zipWith max acc r i hi (by rw [hr]; exact hi)]
      exact max_eq_left (hle r (by simp))
    simp only [List.foldl_cons]
    rw [foldl_zipWith_max_eq rs (List.zipWith max acc r) i
      (by rw [hacc]; exact hi)
      (fun q hq => by rw [hacc]; exact hrect q (by simp [hq]))
      (fun q hq => by rw [hentry]; exact hle q (by simp [hq]))]
    exact hentry

/-- C5 counterexample: with declared bounds 0 and 1000 for the single
variable and one observed value 2000 outside the declared bounds, the
fitted range widens to the observation and `transform` maps the
declared maximum 1000 to 1/2, not to 1 — so transform does not map the
declared maximum to 1 "regardless of the observed sample range". -/
theorem create_data_scaler_counterexample :
    (create_data_scaler [0] [1000] [[2000]]).transform_entry 0 1000 = 1 / 2 ∧
    (create_data_scaler [0] [1000] [[2000]]).transform_entry 0 1000 ≠ 1 := by
  constructor <;>
    norm_num [create_data_scaler, MinMaxScaler.fit, MinMaxScaler.transform_entry]

/-- C5 (amended): after the data scaler is fitted on observations for a
variable with declared lower/upper bounds, the fitted per-variable
range contains the declared bounds (it is never narrower than them);
and whenever the observed samples lie within the declared bounds (with
the lower bound strictly below the upper), `transform` maps the
declared minimum to 0 and the declared maximum to 1.  (The original
claim's "regardless of the observed sample range" fails: observations
outside the declared bounds widen the fitted range, see the
counterexample.) -/
theorem create_data_scaler_spec (lower upper : List ℚ) (obs : List (List ℚ)) (i : ℕ)
    (hi : i < lower.length) (hlen : upper.length = lower.length)
    (hrect : ∀ r ∈ obs, r.length = lower.length) :
    ((create_data_scaler lower upper obs).data_min.getD i 0 ≤ lower.getD i 0 ∧
      upper.getD i 0 ≤ (create_data_scaler lower upper obs).data_max.getD i 0) ∧
    ((∀ r ∈ obs, lower.getD i 0 ≤ r.getD i 0 ∧ r.getD i 0 ≤ upper.getD i 0) →
      lower.getD i 0 < upper.getD i 0 →
      (create_data_scaler lower upper obs).transform_entry i (lower.getD i 0) = 0 ∧
      (create_data_scaler lower upper obs).transform_entry i (upper.getD i 0) = 1) := by
  have hrect' : ∀ r ∈ upper :: obs, r.length = lower.length := by
    intro r hr
    rcases List.mem_cons.mp hr with h | h
    · rw [h]; exact hlen
    · exact hrect r h
  have hmin : (create_data_scaler lower upper obs).data_min =
      (upper :: obs).foldl (fun a r => a.zipWith min r) lower := rfl
  have hmax : (create_data_scaler lower upper obs).data_max =
      (upper :: obs).foldl (fun a r => a.zipWith max r) lower := rfl
  constructor
  · constructor
    · rw [hmin]
      exact foldl_zipWith_min_le (upper :: obs) lower i hi hrect'
    · rw [hmax]
      have hacc : (List.zipWith max lower upper).length = lower.length := by
        rw [List.length_zipWith, hlen, min_self]
      have h1 : (List.zipWith max lower upper).getD i 0 ≤
          ((upper :: obs).foldl (fun a r => a.zipWith max r) lower).getD i 0 := by
        simp only [List.foldl_cons]
        exact foldl_zipWith_max_ge obs (List.zipWith max lower upper) i
          (by rw [hacc]; exact hi)
          (fun q hq => by rw [hacc]; exact hrect q hq)
      refine le_trans ?_ h1
      rw [getD_zipWith max lower upper i hi (by rw [hlen]; exact hi)]
      exact le_max_right _ _
  · intro hbounds hlt
    have hminval : (create_data_scaler lower upper obs).data_min.getD i 0 =
        lower.getD i 0 := by
      rw [hmin]
      exact foldl_zipWith_min_eq (upper :: obs) lower i hi hrect'
        (by
          intro r hr
          rcases List.mem_cons.mp hr with h | h
          · rw [h]; exact le_of_lt hlt
          · exact (hbounds r h).1)
    have hacc : (List.zipWith max lower upper).length = lower.length := by
      rw [List.length_zipWith, hlen, min_self]
    have haccval : (List.zipWith max lower upper).getD i 0 = upper.getD i 0 := by
      rw [getD_zipWith max lower upper i hi (by rw [hlen]; exact hi)]
      exact max_eq_right (le_of_lt hlt)
    have hmaxval : (create_data_scaler lower upper obs).data_max.getD i 0 =
        upper.getD i 0 := by
      rw [hmax]
      simp only [List.foldl_cons]
      rw [foldl_zipWith_max_eq obs (List.zipWith max lower upper) i
        (by rw [hacc]; exact hi)
        (fun q hq => by rw [hacc]; exact hrect q hq)
        (fun q hq => by rw [haccval]; exact (hbounds q hq).2)]
      exact haccval
    have hne : upper.getD i 0 - lower.getD i 0 ≠ 0 := sub_ne_zero.mpr (ne_of_gt hlt)
    constructor
    · simp only [MinMaxScaler.transform_entry]
      rw [hminval, hmaxval, sub_self, zero_div]
    · simp only [MinMaxScaler.transform_entry]
      rw [hminval, hmaxval]
      exact div_self hne

/-- Witness for C5 at concrete inputs: bounds 0 and 1000 with an
in-range observation 500 give a fitted range equal to the declared
bounds, and transform maps 0 to 0 and 1000 to 1. -/
theorem create_data_scaler_spec_witness :
    ((create_data_scaler [0] [1000] [[500]]).data_min.getD 0 0 ≤ 0 ∧
      1000 ≤ (create_data_scaler [0] [1000] [[500]]).data_max.getD 0 0) ∧
    (create_data_scaler [0] [1000] [[500]]).transform_entry 0 0 = 0 ∧
    (create_data_scaler [0] [1000] [[500]]).transform_entry 0 1000 = 1 := by
  have h := create_data_scaler_spec [0] [1000] [[500]] 0 (by decide) (by decide)
    (by intro r hr; simp at hr; rw [hr]; decide)
  have h2 := h.2 (by intro r hr; simp at hr; rw [hr]; norm_num) (by norm_num)
  refine ⟨?_, ?_, ?_⟩
  · have h1 := h.1
    simpa using h1
  · simpa using h2.1
  · simpa using h2.2

/-! ## C10: seed pool invariant -/

theorem refill_pool_length (n : ℕ) (hn : 1 ≤ n) (s : SeedState)
    (h : s.pool.length = n) :
    (refill_consumed_seeds n s).pool.length = 2 * n := by
  simp only [refill_consumed_seeds, create_random_integers]
  rw [if_pos h]
  simp only [List.length_append, List.length_map, List.length_range, seed_buffer_size]
  omega

theorem refill_noop (n : ℕ) (s : SeedState) (h : s.pool.length ≠ n) :
    refill_consumed_seeds n s = s := by
  simp only [refill_consumed_seeds, if_neg h]

theorem draw_seed_eq (n : ℕ) (s : SeedState) (a : ℕ) (rest : List ℕ)
    (hp : (refill_consumed_seeds n s).pool = a :: rest) :
    draw_seed n s = some (a, { refill_consumed_seeds n s with pool := rest }) := by
  simp only [draw_seed]
  split
  · next heq =>
    rw [hp] at heq
    cases heq
  · next seed rest' heq =>
    rw [hp] at heq
    injection heq with h1 h2
    subst h1
    subst h2
    rfl

theorem draw_seed_step (n : ℕ) (hn : 1 ≤ n) (s : SeedState)
    (hlow : n ≤ s.pool.length) (hhigh : s.pool.length ≤ 2 * n) :
    ∃ d, draw_seed n s = some d ∧ n ≤ d.2.pool.length ∧
      d.2.pool.length ≤ 2 * n - 1 := by
  by_cases h : s.pool.length = n
  · have hrl : (refill_consumed_seeds n s).pool.length = 2 * n :=
      refill_pool_length n hn s h
    have hne : (refill_consumed_seeds n s).pool ≠ [] := by
      intro hc
      rw [hc] at hrl
      simp at hrl
      omega
    obtain ⟨a, rest, hp⟩ := List.exists_cons_of_ne_nil hne
    refine ⟨(a, { refill_consumed_seeds n s with pool := rest }),
      draw_seed_eq n s a rest hp, ?_, ?_⟩
    · have : rest.length + 1 = 2 * n := by rw [hp] at hrl; simpa using hrl
      simp only []
      omega
    · have : rest.length + 1 = 2 * n := by rw [hp] at hrl; simpa using hrl
      simp only []
      omega
  · have hre : refill_consumed_seeds n s = s := refill_noop n s h
    have hne : s.pool ≠ [] := by
      intro hc
      rw [hc] at hlow
      simp at hlow
      omega
    obtain ⟨a, rest, hp⟩ := List.exists_cons_of_ne_nil hne
    refine ⟨(a, { refill_consumed_seeds n s with pool := rest }),
      draw_seed_eq n s a rest (by rw [hre]; exact hp), ?_, ?_⟩
    · have : rest.length + 1 = s.pool.length := by rw [hp]; rfl
      simp only []
      omega
    · have : rest.length + 1 = s.pool.length := by rw [hp]; rfl
      simp only []
      omega

theorem draw_n_invariant (n : ℕ) (hn : 1 ≤ n) :
    ∀ (k : ℕ) (s : SeedState), n ≤ s.pool.length → s.pool.length ≤ 2 * n →
      ∃ s', draw_n n (k + 1) s = some s' ∧ n ≤ s'.pool.length ∧
        s'.pool.length ≤ 2 * n - 1
  | 0, s, hlow, hhigh => by
    obtain ⟨d, hd, h1, h2⟩ := draw_seed_step n hn s hlow hhigh
    exact ⟨d.2, by simp [draw_n, hd], h1, h2⟩
  | k + 1, s, hlow, hhigh => by
    obtain ⟨d, hd, h1, h2⟩ := draw_seed_step n hn s hlow hhigh
    obtain ⟨s', hs', h1', h2'⟩ := draw_n_invariant n hn k d.2 h1 (by omega)
    refine ⟨s', ?_, h1', h2'⟩
    rw [show k + 1 + 1 = (k + 1) + 1 from rfl]
    simp only [draw_n, hd]
    exact hs'

/-- C10: starting from an initial pool of `2 * n_cores` pre-drawn
random integers, every sequential `draw_seed` call removes exactly the
first element of the (possibly refilled) pool, the pool is refilled
back to `2 * n_cores` seeds precisely when its length has dropped to
`n_cores`, and under sequential use the pool length after any
`draw_seed` call stays between `n_cores` and `2 * n_cores - 1`;
`draw_seed` never fails on an empty pool. -/
theorem draw_seed_pool_invariant (n_cores : ℕ) (stream : ℕ → ℕ) (k : ℕ)
    (hn : 1 ≤ n_cores) :
    (∃ s', draw_n n_cores (k + 1) (init_seed_state n_cores stream) = some s' ∧
      n_cores ≤ s'.pool.length ∧ s'.pool.length ≤ 2 * n_cores - 1) ∧
    (∀ s : SeedState, s.pool.length = n_cores →
      (refill_consumed_seeds n_cores s).pool.length = 2 * n_cores) ∧
    (∀ s : SeedState, s.pool.length ≠ n_cores → refill_consumed_seeds n_cores s = s) ∧
    (∀ (s : SeedState) (a : ℕ) (rest : List ℕ),
      (refill_consumed_seeds n_cores s).pool = a :: rest →
      draw_seed n_cores s =
        some (a, { refill_consumed_seeds n_cores s with pool := rest })) := by
  refine ⟨?_, fun s h => refill_pool_length n_cores hn s h,
    fun s h => refill_noop n_cores s h,
    fun s a rest h => draw_seed_eq n_cores s a rest h⟩
  have hinit : (init_seed_state n_cores stream).pool.length = 2 * n_cores := by
    simp [init_seed_state, create_random_integers, seed_buffer_size]
  exact draw_n_invariant n_cores hn k (init_seed_state n_cores stream)
    (by omega) (by omega)

/-- Witness for C10 at concrete inputs: one core, three successive
draws from the initial two-seed pool succeed, and a concrete refill
and pop behave as stated. -/
theorem draw_seed_pool_invariant_witness :
    (∃ s', draw_n 1 3 (init_seed_state 1 (fun i => i + 100)) = some s' ∧
      1 ≤ s'.pool.length ∧ s'.pool.length ≤ 2 * 1 - 1) ∧
    (∀ s : SeedState, s.pool.length = 1 →
      (refill_consumed_seeds 1 s).pool.length = 2 * 1) ∧
    (∀ s : SeedState, s.pool.length ≠ 1 → refill_consumed_seeds 1 s = s) ∧
    (∀ (s : SeedState) (a : ℕ) (rest : List ℕ),
      (refill_consumed_seeds 1 s).pool = a :: rest →
      draw_seed 1 s = some (a, { refill_consumed_seeds 1 s with pool := rest })) :=
  draw_seed_pool_invariant 1 (fun i => i + 100) 2 (by decide)

/-! ## C4: dispatch and unknown parameter names -/

theorem dictGet_foldl_dictSet_not_mem {α : Type v} :
    ∀ (theta : List (Param α)) (d : List (String × α)) (name : String),
      name ∉ theta.map Param.name →
      dictGet (theta.foldl (fun ps p => dictSet ps p.name p.value) d) name =
        dictGet d name
  | [], d, name, _ => rfl
  | q :: rest, d, name, h => by
    simp only [List.map_cons, List.mem_cons, not_or] at h
    simp only [List.foldl_cons]
    rw [dictGet_foldl_dictSet_not_mem rest (dictSet d q.name q.value) name (by
      intro hc
      exact h.2 hc)]
    exact dictGet_dictSet_ne d q.name name q.value (fun hc => h.1 hc.symm)

theorem dictGet_foldl_dictSet_mem {α : Type v} :
    ∀ (theta : List (Param α)) (d : List (String × α)),
      (theta.map Param.name).Nodup → ∀ p ∈ theta,
      dictGet (theta.foldl (fun ps p => dictSet ps p.name p.value) d) p.name =
        some p.value
  | [], _, _, p, hp => absurd hp (by simp)
  | q :: rest, d, hnd, p, hp => by
    simp only [List.map_cons, List.nodup_cons] at hnd
    simp only [List.foldl_cons]
    rcases List.mem_cons.mp hp with h | h
    · subst h
      rw [dictGet_foldl_dictSet_not_mem rest (dictSet d p.name p.value) p.name hnd.1]
      exact dictGet_dictSet_self d p.name p.value
    · exact dictGet_foldl_dictSet_mem rest (dictSet d q.name q.value) hnd.2 p h

/-- C4 counterexample: dispatching a theta whose name "zeta" is not
among the declared free-parameter names (here only "alpha") neither
raises an error nor drops the name — `dispatch` is a total function on
this path and the unknown name is silently merged into the resolved
parameter mapping. -/
theorem dispatch_unknown_name_counterexample :
    (dispatch
      ({ model_parameters := { parameters := [("alpha", 5)], y0 := [] },
         free_parameter_names := ["alpha"],
         dimensions := ["time"],
         modeltype := "deterministic" } : Simulation ℚ)
      [{ name := "zeta", value := 7 }]).parameters.parameters =
      [("alpha", 5), ("zeta", 7)] := by
  decide

/-- C4 (amended): `dispatch` performs no name validation: for every
theta, each theta entry's value is merged into the resolved parameter
mapping under its name (unknown names included, added at the end),
names not in theta keep their fixed values, and `y0` is passed
through unchanged; no error is raised at dispatch time. -/
theorem dispatch_merges_theta {α : Type v} (sim : Simulation α)
    (theta : List (Param α)) (hnd : (theta.map Param.name).Nodup) :
    (∀ p ∈ theta,
      dictGet (dispatch sim theta).parameters.parameters p.name = some p.value) ∧
    (∀ name, name ∉ theta.map Param.name →
      dictGet (dispatch sim theta).parameters.parameters name =
        dictGet sim.model_parameters.parameters name) ∧
    (dispatch sim theta).parameters.y0 = sim.model_parameters.y0 := by
  refine ⟨?_, ?_, rfl⟩
  · intro p hp
    exact dictGet_foldl_dictSet_mem theta sim.model_parameters.parameters hnd p hp
  · intro name hname
    exact dictGet_foldl_dictSet_not_mem theta sim.model_parameters.parameters name hname

/-- Witness for C4 (amended) at a concrete input: a theta with a known
and an unknown name merges both, keeps the untouched fixed parameter,
and passes y0 through. -/
theorem dispatch_merges_theta_witness :
    (∀ p ∈ ([{ name := "alpha", value := 5 }, { name := "zeta", value := 7 }] :
        List (Param ℚ)),
      dictGet (dispatch exampleSimulation
        [{ name := "alpha", value := 5 }, { name := "zeta", value := 7 }]
        ).parameters.parameters p.name = some p.value) ∧
    dictGet (dispatch exampleSimulation
      [{ name := "alpha", value := 5 }, { name := "zeta", value := 7 }]
      ).parameters.parameters "beta" = some 2 ∧
    (dispatch exampleSimulation
      [{ name := "alpha", value := 5 }, { name := "zeta", value := 7 }]
      ).parameters.y0 = [("cext", 1000)] := by
  have h := dispatch_merges_theta exampleSimulation
    [{ name := "alpha", value := 5 }, { name := "zeta", value := 7 }]
    (by decide)
  exact ⟨h.1, by
    have h2 := h.2.1 "beta" (by decide)
    rw [h2]
    decide, h.2.2⟩

/-! ## C1, C3, C8: the JaxSolver -/

theorem getD_map {α : Type u} {β : Type v} (f : α → β) (l : List α) (i : ℕ)
    (dflt : β) (d : α) (hi : i < l.length) :
    (l.map f).getD i dflt = f (l.getD i d) := by
  rw [List.getD_eq_getElem _ _ (by simpa using hi), List.getD_eq_getElem _ _ hi,
    List.getElem_map]

/-- C1: when an integration exceeds the configured maximum step count
before reaching the final time, `odesolve` follows exactly one of the
two configured policies: with `throw_exception` set it propagates the
solver-divergence fault, and otherwise it completes without raising
and returns `+infinity` for all state values at and after the failing
time (and finite values before it), for every parameter/initial-state/
forcing input. -/
theorem odesolve_divergence_policy (s : JaxSolver) (dyn : OdeDynamics)
    (y0 args : List ℚ) (x_in : List (List ℚ))
    (hdiv : s.max_steps < dyn.steps_needed) :
    (s.throw_exception = true →
      s.odesolve dyn y0 args x_in = .error .max_steps_reached) ∧
    (s.throw_exception = false →
      ∃ rows interp, s.odesolve dyn y0 args x_in = .ok (rows, interp) ∧
        rows.length = s.x.length ∧
        (∀ i, i < s.x.length → dyn.break_time ≤ s.x.getD i 0 →
          ∀ v ∈ rows.getD i [], v = XVal.inf) ∧
        (∀ i, i < s.x.length → s.x.getD i 0 < dyn.break_time →
          rows.getD i [] = (dyn.sol (s.x.getD i 0)).map XVal.val)) := by
  have hns : ¬dyn.steps_needed ≤ s.max_steps := by omega
  constructor
  · intro hthrow
    simp [JaxSolver.odesolve, diffeqsolve, if_neg hns, hthrow, Bind.bind, Except.bind]
  · intro hthrow
    refine ⟨s.x.map (fun t =>
      if dyn.break_time ≤ t then (dyn.sol t).map (fun _ => XVal.inf)
      else (dyn.sol t).map XVal.val),
      (if 0 < x_in.length then some (x_in.headD [], x_in.getD 1 []) else none),
      ?_, ?_, ?_, ?_⟩
    · simp only [JaxSolver.odesolve, diffeqsolve, if_neg hns, hthrow, Bind.bind,
        Except.bind, Bool.false_eq_true, if_false]
      rfl
    · exact List.length_map _ _
    · intro i hi hbreak
      rw [getD_map _ s.x i [] 0 hi, if_pos hbreak]
      intro v hv
      obtain ⟨w, _, hw⟩ := List.mem_map.mp hv
      exact hw.symm
    · intro i hi hbefore
      rw [getD_map _ s.x i [] 0 hi, if_neg (not_le.mpr hbefore)]

/-- Witness for C1 at concrete inputs: an integration that needs 5
steps with a budget of 2 raises under the throw policy and, under the
infinity policy, completes with infinities exactly at and after the
break time 3 on the grid 0..4. -/
theorem odesolve_divergence_policy_witness :
    (({ max_steps := 2, throw_exception := true, x := [0, 1, 2, 3, 4] } : JaxSolver).odesolve
      { steps_needed := 5, break_time := 3, sol := fun t => [t] } [0] [] [] =
      .error .max_steps_reached) ∧
    (∃ rows interp,
      ({ max_steps := 2, throw_exception := false, x := [0, 1, 2, 3, 4] } : JaxSolver).odesolve
        { steps_needed := 5, break_time := 3, sol := fun t => [t] } [0] [] [] =
        .ok (rows, interp) ∧
      rows.length = 5 ∧
      (∀ v ∈ rows.getD 3 [], v = XVal.inf) ∧
      rows.getD 0 [] = [XVal.val 0]) := by
  constructor
  · exact (odesolve_divergence_policy
      ({ max_steps := 2, throw_exception := true, x := [0, 1, 2, 3, 4] } : JaxSolver)
      { steps_needed := 5, break_time := 3, sol := fun t => [t] } [0] [] []
      (by decide)).1 rfl
  · obtain ⟨rows, interp, heq, hlen, hinf, hval⟩ := (odesolve_divergence_policy
      ({ max_steps := 2, throw_exception := false, x := [0, 1, 2, 3, 4] } : JaxSolver)
      { steps_needed := 5, break_time := 3, sol := fun t => [t] } [0] [] []
      (by decide)).2 rfl
    refine ⟨rows, interp, heq, by simpa using hlen, ?_, ?_⟩
    · intro v hv
      refine hinf 3 (by decide) (by norm_num) v hv
    · have h := hval 0 (by decide) (by norm_num)
      simpa using h

/-- C3: `solve` is deterministic: for every fixed solver configuration
and integration behaviour, two invocations of `solve` on identical
parameters, y0 and x_in produce identical outputs; the embedding of
`solve` is a pure function with no random input. -/
theorem solve_deterministic (s : JaxSolver) (dyn : OdeDynamics)
    (parameters : List (String × List ℚ)) (y0 : List (String × List ℚ))
    (x_in : List (List (List ℚ))) :
    s.solve dyn parameters y0 x_in = s.solve dyn parameters y0 x_in := rfl

theorem zip_self_filterMap_lt (L : ℚ) :
    ∀ ts : List ℚ,
      (ts.zip ts).filterMap (fun p => if p.2 < L then some p.1 else none) =
        ts.filter (fun t => decide (t < L))
  | [] => rfl
  | t :: ts => by
    by_cases h : t < L <;>
      simp [List.zip_cons_cons, List.filterMap_cons, h, zip_self_filterMap_lt L ts,
        List.filter_cons]

/-- C8 counterexample: with time coordinates 0..10 and forcing
breakpoints -5, 3, 10, the jump times computed by `odesolve` are -5
and 3, while the spec's set (breakpoints restricted to the closed
range from the first to the last time coordinate) is 3 and 10: the
code applies no lower restriction and excludes the breakpoint equal to
the last time coordinate, so the two sets differ. -/
theorem odesolve_jumps_counterexample :
    (({ x := [0, 10], coordinates_input_vars_x_in := [-5, 3, 10] } :
        JaxSolver).odesolve_jumps [[-5, 3, 10], [1, 1, 1]] = some [-5, 3]) ∧
    spec_jump_times [-5, 3, 10] [0, 10] = [3, 10] ∧
    (-5 : ℚ) ∉ spec_jump_times [-5, 3, 10] [0, 10] ∧
    (10 : ℚ) ∈ spec_jump_times [-5, 3, 10] [0, 10] ∧
    (-5 : ℚ) ∈ [(-5 : ℚ), 3] ∧ (10 : ℚ) ∉ [(-5 : ℚ), 3] := by
  refine ⟨by decide, by decide, by decide, by decide, by decide, by decide⟩

/-- C8 (amended): whenever exogenous forcing `x_in` is present (its
first flattened component being the forcing breakpoint vector), the
jump times passed to the step-size controller are exactly the forcing
breakpoints strictly below the last time coordinate — no lower
restriction at the first time coordinate is applied and a breakpoint
equal to the last time coordinate is excluded; when no forcing is
present, no jump times are imposed. -/
theorem odesolve_jumps_spec (s : JaxSolver) (x_in : List (List ℚ)) :
    (x_in = [] → s.odesolve_jumps x_in = none) ∧
    (∀ ts rest, x_in = ts :: rest → ts = s.coordinates_input_vars_x_in →
      s.odesolve_jumps x_in =
        some (ts.filter (fun t => decide (t < s.x.getLastD 0)))) := by
  constructor
  · intro h
    subst h
    simp [JaxSolver.odesolve_jumps]
  · intro ts rest hx hts
    subst hx
    simp only [JaxSolver.odesolve_jumps, List.length_cons, List.headD_cons,
      if_pos (Nat.succ_pos rest.length)]
    rw [← hts]
    rw [zip_self_filterMap_lt (s.x.getLastD 0) ts]

/-- Witness for C8 at concrete inputs: the forcing case yields exactly
the breakpoints below the last time coordinate, and the no-forcing
case yields no jump times. -/
theorem odesolve_jumps_spec_witness :
    (({ x := [0, 10], coordinates_input_vars_x_in := [-5, 3, 10] } :
        JaxSolver).odesolve_jumps [[-5, 3, 10], [1, 1, 1]] = some [-5, 3]) ∧
    (({ x := [0, 10], coordinates_input_vars_x_in := [-5, 3, 10] } :
        JaxSolver).odesolve_jumps [] = none) := by
  constructor
  · have h := (odesolve_jumps_spec
      ({ x := [0, 10], coordinates_input_vars_x_in := [-5, 3, 10] } : JaxSolver)
      [[-5, 3, 10], [1, 1, 1]]).2 [-5, 3, 10] [[1, 1, 1]] rfl rfl
    rw [h]
    decide
  · exact (odesolve_jumps_spec
      ({ x := [0, 10], coordinates_input_vars_x_in := [-5, 3, 10] } : JaxSolver)
      []).1 rfl

/-! ## Separator and digit lemmas for the flattener -/

theorem pySplit3_ne_nil (s : PyStr) : pySplit3 s ≠ [] := by
  induction s using pySplit3.induct with
  | case1 => simp [pySplit3]
  | case2 rest ih => simp [pySplit3]
  | case3 c rest hne hnil ih =>
    rw [pySplit3.eq_3 c rest hne, hnil]
    simp
  | case4 c rest hne g gs hcons ih =>
    rw [pySplit3.eq_3 c rest hne, hcons]
    simp

theorem hasSep3_cons_true (c : Char) (rest : PyStr) (h : hasSep3 rest = true) :
    hasSep3 (c :: rest) = true := by
  by_cases hc : ∀ rest_1, c = '_' → rest = '_' :: '_' :: rest_1 → False
  · rw [hasSep3.eq_3 c rest hc]
    exact h
  · push_neg at hc
    obtain ⟨r1, hc1, hr1, -⟩ := hc
    subst hc1
    subst hr1
    rfl

theorem hasSep3_append_sep (a b : PyStr) :
    hasSep3 (a ++ '_' :: '_' :: '_' :: b) = true := by
  induction a with
  | nil => rfl
  | cons c a ih => exact hasSep3_cons_true c _ ih

theorem hasSep3_eq_false (s : PyStr) (h : ∀ c ∈ s, c ≠ '_') : hasSep3 s = false := by
  induction s using hasSep3.induct with
  | case1 => rfl
  | case2 rest => exact absurd rfl (h '_' (by simp))
  | case3 c rest hne ih =>
    rw [hasSep3.eq_3 c rest hne]
    exact ih (fun d hd => h d (by simp [hd]))

theorem pySplit3_no_sep (s : PyStr) (h : hasSep3 s = false) : pySplit3 s = [s] := by
  induction s using pySplit3.induct with
  | case1 => rfl
  | case2 rest ih => simp [hasSep3] at h
  | case3 c rest hne hnil ih => exact absurd hnil (pySplit3_ne_nil rest)
  | case4 c rest hne g gs hcons ih =>
    rw [hasSep3.eq_3 c rest hne] at h
    rw [pySplit3.eq_3 c rest hne, ih h]

theorem pySplit3_key :
    ∀ (k d : PyStr), hasSep3 k = false → k.getLast? ≠ some '_' →
      (∀ c ∈ d, c ≠ '_') →
      pySplit3 (k ++ '_' :: '_' :: '_' :: d) = [k, d]
  | [], d, _, _, hd => by
    rw [List.nil_append, pySplit3.eq_2 d, pySplit3_no_sep d (hasSep3_eq_false d hd)]
  | c :: k, d, hsep, hlast, hd => by
    have hsep' : hasSep3 k = false := by
      by_contra hc
      have := hasSep3_cons_true c k (by revert hc; cases hasSep3 k <;> simp)
      rw [this] at hsep
      cases hsep
    have hlast' : k.getLast? ≠ some '_' := by
      match k, hlast with
      | [], _ => simp
      | a :: k, hlast =>
        rw [List.getLast?_cons_cons] at hlast
        exact hlast
    have hcond : ∀ rest_1, c = '_' →
        k ++ '_' :: '_' :: '_' :: d = '_' :: '_' :: rest_1 → False := by
      intro r1 hc hrest
      subst hc
      match k, hrest, hlast, hsep with
      | [], _, hlast, _ => exact hlast rfl
      | [a], hrest, hlast, _ =>
        injection hrest with h1 _
        subst h1
        exact hlast (by rw [List.getLast?_cons_cons]; rfl)
      | a :: b :: k, hrest, _, hsep =>
        injection hrest with h1 hrest
        injection hrest with h2 _
        subst h1
        subst h2
        simp [hasSep3] at hsep
    rw [List.cons_append, pySplit3.eq_3 _ _ hcond,
      pySplit3_key k d hsep' hlast' hd]

theorem decDigit_digit (n : ℕ) (h : n < 10) :
    '0' ≤ decDigit n ∧ decDigit n ≤ '9' := by
  interval_cases n <;> decide

theorem digitVal?_decDigit (n : ℕ) (h : n < 10) : digitVal? (decDigit n) = some n := by
  interval_cases n <;> decide

theorem digit_ne_special (c : Char) (h : '0' ≤ c ∧ c ≤ '9') :
    c ≠ '_' ∧ c ≠ '-' ∧ c ≠ '+' := by
  refine ⟨?_, ?_, ?_⟩ <;> intro hc <;> subst hc <;> revert h <;> decide

theorem natDigitsCore_shift :
    ∀ (fuel n : ℕ) (acc : PyStr), n < fuel →
      natDigitsCore fuel n acc = natDigitsCore fuel n [] ++ acc
  | 0, n, acc, h => absurd h (by omega)
  | fuel + 1, n, acc, h => by
    by_cases h10 : n < 10
    · simp [natDigitsCore, h10]
    · have hdiv : n / 10 < n := Nat.div_lt_self (by omega) (by omega)
      have hlt : n / 10 < fuel := by omega
      simp only [natDigitsCore, if_neg h10]
      rw [natDigitsCore_shift fuel (n / 10) (decDigit (n % 10) :: acc) hlt,
        natDigitsCore_shift fuel (n / 10) [decDigit (n % 10)] hlt,
        List.append_assoc]
      rfl

theorem natDigitsCore_fuel_irrel :
    ∀ (f₁ f₂ n : ℕ), n < f₁ → n < f₂ → ∀ acc,
      natDigitsCore f₁ n acc = natDigitsCore f₂ n acc
  | 0, _, n, h₁, _, _ => absurd h₁ (by omega)
  | _ + 1, 0, n, _, h₂, _ => absurd h₂ (by omega)
  | f₁ + 1, f₂ + 1, n, h₁, h₂, acc => by
    by_cases h10 : n < 10
    · simp [natDigitsCore, h10]
    · have hdiv : n / 10 < n := Nat.div_lt_self (by omega) (by omega)
      simp only [natDigitsCore, if_neg h10]
      exact natDigitsCore_fuel_irrel f₁ f₂ (n / 10) (by omega) (by omega) _

theorem natDigits_eq (n : ℕ) :
    natDigits n =
      if n < 10 then [decDigit n]
      else natDigits (n / 10) ++ [decDigit (n % 10)] := by
  by_cases h10 : n < 10
  · simp [natDigits, natDigitsCore, h10]
  · have hdiv : n / 10 < n := Nat.div_lt_self (by omega) (by omega)
    rw [if_neg h10]
    show natDigitsCore (n + 1) n [] = _
    simp only [natDigitsCore, if_neg h10]
    rw [natDigitsCore_shift n (n / 10) [decDigit (n % 10)] (by omega),
      natDigitsCore_fuel_irrel n (n / 10 + 1) (n / 10) (by omega) (by omega) []]
    rfl

theorem natDigits_digit (n : ℕ) : ∀ c ∈ natDigits n, '0' ≤ c ∧ c ≤ '9' := by
  induction n using Nat.strong_induction_on with
  | _ n ih =>
    rw [natDigits_eq]
    by_cases h10 : n < 10
    · rw [if_pos h10]
      intro c hc
      rw [List.mem_singleton] at hc
      subst hc
      exact decDigit_digit n h10
    · rw [if_neg h10]
      intro c hc
      rcases List.mem_append.mp hc with h | h
      · exact ih (n / 10) (Nat.div_lt_self (by omega) (by omega)) c h
      · rw [List.mem_singleton] at h
        subst h
        exact decDigit_digit (n % 10) (Nat.mod_lt n (by omega))

theorem natDigits_ne_nil (n : ℕ) : natDigits n ≠ [] := by
  rw [natDigits_eq]
  by_cases h10 : n < 10
  · rw [if_pos h10]
    simp
  · rw [if_neg h10]
    simp

theorem digitsVal_append_digit (a : PyStr) (c : Char) :
    digitsVal (a ++ [c]) =
      (digitsVal a).bind (fun acc => (digitVal? c).map (fun dd => acc * 10 + dd)) := by
  cases hfold : a.foldlM (fun acc c => (digitVal? c).map (fun d => acc * 10 + d)) 0 with
  | none => simp [digitsVal, List.foldlM_append, hfold]
  | some acc =>
    simp only [digitsVal, List.foldlM_append, hfold]
    cases hc : digitVal? c <;>
      simp [List.foldlM_cons, List.foldlM_nil, hc]

theorem digitsVal_natDigits (n : ℕ) : digitsVal (natDigits n) = some n := by
  induction n using Nat.strong_induction_on with
  | _ n ih =>
    rw [natDigits_eq]
    by_cases h10 : n < 10
    · rw [if_pos h10]
      simp [digitsVal, List.foldlM_cons, List.foldlM_nil, digitVal?_decDigit n h10]
    · rw [if_neg h10, digitsVal_append_digit,
        ih (n / 10) (Nat.div_lt_self (by omega) (by omega)),
        digitVal?_decDigit (n % 10) (Nat.mod_lt n (by omega))]
      simp only [Option.some_bind, Option.map_some']
      rw [show n / 10 * 10 + n % 10 = n by omega]

theorem natDigits_inj {i j : ℕ} (h : natDigits i = natDigits j) : i = j := by
  have hi := digitsVal_natDigits i
  rw [h, digitsVal_natDigits j] at hi
  injection hi with hij
  exact hij.symm

theorem pyInt?_natDigits (n : ℕ) : pyInt? (natDigits n) = some (n : ℤ) := by
  obtain ⟨c, rest, hcr⟩ := List.exists_cons_of_ne_nil (natDigits_ne_nil n)
  have hdig : '0' ≤ c ∧ c ≤ '9' := natDigits_digit n c (by rw [hcr]; simp)
  have hne := digit_ne_special c hdig
  have h2 : digitsVal (c :: rest) = some n := by
    rw [← hcr]
    exact digitsVal_natDigits n
  rw [hcr]
  simp [pyInt?, if_neg hne.2.1, if_neg hne.2.2, h2]

/-! ## Flat-key lemmas -/

theorem cleanName_iff (s : PyStr) :
    cleanName s = true ↔ hasSep3 s = false ∧ s.getLast? ≠ some '_' := by
  simp [cleanName]

theorem pySplit3_flatKey (k : PyStr) (i : ℕ) (hk : cleanName k = true) :
    pySplit3 (flatKey k i) = [k, natDigits i] := by
  obtain ⟨h1, h2⟩ := (cleanName_iff k).mp hk
  have hd : ∀ c ∈ natDigits i, c ≠ '_' :=
    fun c hc => (digit_ne_special c (natDigits_digit i c hc)).1
  show pySplit3 (k ++ underscore3 ++ natDigits i) = _
  rw [List.append_assoc]
  exact pySplit3_key k (natDigits i) h1 h2 hd

theorem pySplit3_clean (k : PyStr) (hk : cleanName k = true) : pySplit3 k = [k] :=
  pySplit3_no_sep k ((cleanName_iff k).mp hk).1

theorem hasSep3_flatKey (k : PyStr) (i : ℕ) : hasSep3 (flatKey k i) = true := by
  show hasSep3 (k ++ underscore3 ++ natDigits i) = true
  rw [List.append_assoc]
  exact hasSep3_append_sep k (natDigits i)

theorem flatKey_ne_clean (k₁ : PyStr) (i : ℕ) (k₂ : PyStr)
    (h : cleanName k₂ = true) : flatKey k₁ i ≠ k₂ := by
  intro hc
  have h2 := hasSep3_flatKey k₁ i
  rw [hc, ((cleanName_iff k₂).mp h).1] at h2
  cases h2

theorem flatKey_inj (k₁ k₂ : PyStr) (i j : ℕ) (h₁ : cleanName k₁ = true)
    (h₂ : cleanName k₂ = true) (heq : flatKey k₁ i = flatKey k₂ j) :
    k₁ = k₂ ∧ i = j := by
  have h := congrArg pySplit3 heq
  rw [pySplit3_flatKey k₁ i h₁, pySplit3_flatKey k₂ j h₂] at h
  injection h with ha hb
  injection hb with hb
  exact ⟨ha, natDigits_inj hb⟩

theorem mem_flatEntries_keys (pv : PyStr × PVal) (k : PyStr)
    (h : k ∈ (flatEntries pv).map Prod.fst) :
    k = pv.1 ∨ ∃ i, k = flatKey pv.1 i := by
  cases hv : pv.2 with
  | scalar v =>
    simp [flatEntries, hv] at h
    exact Or.inl h
  | vector vs =>
    simp only [flatEntries, hv, List.map_map, List.mem_map] at h
    obtain ⟨iv, _, hiv⟩ := h
    exact Or.inr ⟨iv.1, hiv.symm⟩

theorem flatEntry_key_ne_name (qv : PyStr × PVal) (name : PyStr)
    (hclean_name : cleanName name = true) (hne : qv.1 ≠ name) :
    ∀ k ∈ (flatEntries qv).map Prod.fst, k ≠ name := by
  intro k hk
  rcases mem_flatEntries_keys qv k hk with h | ⟨i, h⟩
  · subst h
    exact hne
  · subst h
    exact flatKey_ne_clean qv.1 i name hclean_name

theorem flatEntries_keys_disjoint (pv qv : PyStr × PVal)
    (hp : cleanName pv.1 = true) (hq : cleanName qv.1 = true) (hne : pv.1 ≠ qv.1) :
    ∀ k ∈ (flatEntries pv).map Prod.fst, k ∉ (flatEntries qv).map Prod.fst := by
  intro k hk hq'
  rcases mem_flatEntries_keys pv k hk with h | ⟨i, h⟩ <;>
    rcases mem_flatEntries_keys qv k hq' with h' | ⟨j, h'⟩
  · exact hne (h ▸ h' ▸ rfl)
  · subst h
    exact flatKey_ne_clean qv.1 j pv.1 hp h'.symm
  · subst h'
    exact flatKey_ne_clean pv.1 i qv.1 hq h.symm
  · rw [h] at h'
    exact hne (flatKey_inj pv.1 qv.1 i j hp hq h').1

theorem flatEntries_keys_nodup (pv : PyStr × PVal) (h : cleanName pv.1 = true) :
    ((flatEntries pv).map Prod.fst).Nodup := by
  cases hv : pv.2 with
  | scalar v => simp [flatEntries, hv]
  | vector vs =>
    have hkeys : (flatEntries (pv.1, PVal.vector vs)).map Prod.fst =
        (List.range vs.length).map (flatKey pv.1) := by
      rw [← List.enum_map_fst vs]
      simp only [flatEntries, List.map_map]
      rfl
    have hpv : flatEntries pv = flatEntries (pv.1, PVal.vector vs) := by
      simp [flatEntries, hv]
    rw [hpv, hkeys]
    refine List.Nodup.map ?_ (List.nodup_range vs.length)
    intro i j hij
    exact (flatKey_inj pv.1 pv.1 i j h h hij).2

/-! ## Characterization of the flatten pass -/

theorem flatOf_cons (pv : PyStr × PVal) (rest : List (PyStr × PVal))
    (ex : List PyStr) :
    flatOf (pv :: rest) ex =
      if pv.1 ∈ ex then flatOf rest ex
      else flatEntries pv ++ flatOf rest ex := by
  by_cases h : pv.1 ∈ ex <;> simp [flatOf, List.filter_cons, h]

theorem templateOf_cons (pv : PyStr × PVal) (rest : List (PyStr × PVal))
    (ex : List PyStr) :
    templateOf (pv :: rest) ex =
      if pv.1 ∈ ex then templateOf rest ex
      else (pv.1, nanTemplate pv.2) :: templateOf rest ex := by
  by_cases h : pv.1 ∈ ex <;> simp [templateOf, List.filter_cons, h]

theorem foldl_dictSet_fresh {K : Type u} {α : Type v} [DecidableEq K] :
    ∀ (entries : List (K × α)) (d : List (K × α)),
      (∀ e ∈ entries, e.1 ∉ dictKeys d) → (entries.map Prod.fst).Nodup →
      entries.foldl (fun f e => dictSet f e.1 e.2) d = d ++ entries
  | [], d, _, _ => by simp
  | e :: rest, d, hfresh, hnd => by
    simp only [List.foldl_cons]
    rw [dictSet_fresh d e.1 e.2 (hfresh e (by simp))]
    have hnd' : e.1 ∉ rest.map Prod.fst ∧ (rest.map Prod.fst).Nodup := by
      simpa using hnd
    rw [foldl_dictSet_fresh rest (d ++ [(e.1, e.2)]) ?_ hnd'.2]
    · simp
    · intro e' he'
      simp only [dictKeys, List.map_append, List.mem_append, List.map_cons,
        List.map_nil, List.mem_singleton, not_or]
      refine ⟨hfresh e' (by simp [he']), ?_⟩
      intro hc
      exact hnd'.1 (hc ▸ List.mem_map_of_mem Prod.fst he')

theorem flattenPass_go (exclude : List PyStr) :
    ∀ (params : List (PyStr × PVal))
      (acc : List (PyStr × FVal) × List (PyStr × PVal)),
      (params.map Prod.fst).Nodup →
      (∀ k ∈ params.map Prod.fst, cleanName k = true) →
      (∀ pv ∈ params, ∀ k ∈ (flatEntries pv).map Prod.fst, k ∉ dictKeys acc.1) →
      (∀ pv ∈ params, pv.1 ∉ dictKeys acc.2) →
      params.foldl (flattenStep exclude) acc =
        (acc.1 ++ flatOf params exclude, acc.2 ++ templateOf params exclude) := by
  intro params
  induction params with
  | nil =>
    intro acc _ _ _ _
    rw [List.foldl_nil, show flatOf [] exclude = [] from rfl,
      show templateOf [] exclude = [] from rfl, List.append_nil, List.append_nil]
  | cons pv rest ih =>
    intro acc hnd hclean hf1 hf2
    have hnd' : pv.1 ∉ rest.map Prod.fst ∧ (rest.map Prod.fst).Nodup := by
      simpa using hnd
    have hcleanp : cleanName pv.1 = true := hclean pv.1 (by simp)
    have hcleanr : ∀ k ∈ rest.map Prod.fst, cleanName k = true :=
      fun k hk => hclean k (by simp [hk])
    simp only [List.foldl_cons]
    by_cases hex : pv.1 ∈ exclude
    · rw [show flattenStep exclude acc pv = acc by simp [flattenStep, hex]]
      rw [ih acc hnd'.2 hcleanr
        (fun qv hqv => hf1 qv (by simp [hqv]))
        (fun qv hqv => hf2 qv (by simp [hqv]))]
      rw [flatOf_cons, templateOf_cons, if_pos hex, if_pos hex]
    · have hnewfresh1 : ∀ qv ∈ rest, ∀ k ∈ (flatEntries qv).map Prod.fst,
          k ∉ dictKeys (acc.1 ++ flatEntries pv) := by
        intro qv hqv k hk
        simp only [dictKeys, List.map_append, List.mem_append, not_or]
        refine ⟨hf1 qv (by simp [hqv]) k hk, ?_⟩
        have hqne : qv.1 ≠ pv.1 := by
          intro hc
          exact hnd'.1 (hc ▸ List.mem_map_of_mem Prod.fst hqv)
        exact flatEntries_keys_disjoint qv pv
          (hcleanr qv.1 (List.mem_map_of_mem Prod.fst hqv)) hcleanp hqne k hk
      have hnewfresh2 : ∀ qv ∈ rest,
          qv.1 ∉ dictKeys (acc.2 ++ [(pv.1, nanTemplate pv.2)]) := by
        intro qv hqv
        simp only [dictKeys, List.map_append, List.mem_append, List.map_cons,
          List.map_nil, List.mem_singleton, not_or]
        refine ⟨hf2 qv (by simp [hqv]), ?_⟩
        intro hc
        exact hnd'.1 (hc ▸ List.mem_map_of_mem Prod.fst hqv)
      have hstep : flattenStep exclude acc pv =
          (acc.1 ++ flatEntries pv, acc.2 ++ [(pv.1, nanTemplate pv.2)]) := by
        cases hv : pv.2 with
        | scalar v =>
          simp only [flattenStep, if_neg hex, hv]
          have hget : dictGet acc.2 pv.1 = none :=
            dictGet_eq_none acc.2 pv.1 (hf2 pv (by simp))
          rw [hget]
          simp only [Option.isSome_none, Bool.false_eq_true, if_false]
          rw [dictSet_fresh acc.1 pv.1 v
            (hf1 pv (by simp) pv.1 (by simp [flatEntries, hv])),
            dictSet_fresh acc.2 pv.1 (.scalar .nan) (hf2 pv (by simp))]
          have hfe : flatEntries pv = [(pv.1, v)] := by simp [flatEntries, hv]
          rw [hfe]
          rfl
        | vector vs =>
          simp only [flattenStep, if_neg hex, hv]
          have hfe : flatEntries pv =
              vs.enum.map (fun iv => (flatKey pv.1 iv.1, iv.2)) := by
            simp [flatEntries, hv]
          have hfold : vs.enum.foldl
              (fun f iv => dictSet f (flatKey pv.1 iv.1) iv.2) acc.1 =
              (flatEntries pv).foldl (fun f e => dictSet f e.1 e.2) acc.1 := by
            rw [hfe, List.foldl_map]
          rw [hfold, foldl_dictSet_fresh (flatEntries pv) acc.1
            (fun e he => hf1 pv (by simp) e.1 (List.mem_map_of_mem Prod.fst he))
            (flatEntries_keys_nodup pv hcleanp),
            dictSet_fresh acc.2 pv.1 _ (hf2 pv (by simp))]
          rfl
      rw [hstep]
      rw [ih (acc.1 ++ flatEntries pv, acc.2 ++ [(pv.1, nanTemplate pv.2)])
        hnd'.2 hcleanr hnewfresh1 hnewfresh2]
      rw [flatOf_cons, templateOf_cons, if_neg hex, if_neg hex]
      simp [List.append_assoc]

theorem flattenPass_eq (params : List (PyStr × PVal)) (exclude : List PyStr)
    (hnd : (params.map Prod.fst).Nodup)
    (hclean : ∀ k ∈ params.map Prod.fst, cleanName k = true) :
    flattenPass params exclude = (flatOf params exclude, templateOf params exclude) := by
  have h := flattenPass_go exclude params ([], []) hnd hclean
    (by intro pv _ k _; simp [dictKeys]) (by intro pv _; simp [dictKeys])
  simpa [flattenPass] using h

/-! ## Write-back lemmas for the reverse mapper -/

theorem setMany_cons (cur : List FVal) (iv : ℕ × FVal) (rest : List (ℕ × FVal)) :
    setMany cur (iv :: rest) = setMany (cur.set iv.1 iv.2) rest := rfl

theorem setMany_length :
    ∀ (ents : List (ℕ × FVal)) (cur : List FVal),
      (setMany cur ents).length = cur.length
  | [], cur => rfl
  | iv :: rest, cur => by
    rw [setMany_cons, setMany_length rest (cur.set iv.1 iv.2), List.length_set]

theorem setMany_getD_not_mem :
    ∀ (ents : List (ℕ × FVal)) (cur : List FVal) (j : ℕ),
      j ∉ ents.map Prod.fst →
      (setMany cur ents).getD j .nan = cur.getD j .nan
  | [], cur, j, _ => rfl
  | iv :: rest, cur, j, h => by
    simp only [List.map_cons, List.mem_cons, not_or] at h
    rw [setMany_cons, setMany_getD_not_mem rest (cur.set iv.1 iv.2) j h.2,
      List.getD_eq_getElem?_getD, List.getD_eq_getElem?_getD,
      List.getElem?_set_ne (fun hc => h.1 hc.symm)]

theorem setMany_getD_mem :
    ∀ (ents : List (ℕ × FVal)) (cur : List FVal) (j : ℕ) (w : FVal),
      (ents.map Prod.fst).Nodup → (j, w) ∈ ents → j < cur.length →
      (setMany cur ents).getD j .nan = w
  | [], _, _, _, _, hmem, _ => absurd hmem (by simp)
  | iv :: rest, cur, j, w, hnd, hmem, hj => by
    simp only [List.map_cons, List.nodup_cons] at hnd
    rcases List.mem_cons.mp hmem with h | h
    · rw [setMany_cons, ← h]
      have hnot : j ∉ rest.map Prod.fst := by
        rw [← h] at hnd
        exact hnd.1
      rw [setMany_getD_not_mem rest (cur.set j w) j hnot,
        List.getD_eq_getElem?_getD, List.getElem?_set_self hj]
      rfl
    · have hne : iv.1 ≠ j := by
        intro hc
        exact hnd.1 (hc ▸ List.mem_map_of_mem Prod.fst h)
      rw [setMany_cons]
      exact setMany_getD_mem rest (cur.set iv.1 iv.2) j w hnd.2 h
        (by rw [List.length_set]; exact hj)

theorem mem_enum_bound {α : Type u} (l : List α) (iv : ℕ × α) (h : iv ∈ l.enum) :
    iv.1 < l.length ∧ l[iv.1]? = some iv.2 := by
  have h2 := List.mem_enum_iff_getElem?.mp h
  obtain ⟨hlt, -⟩ := List.getElem?_eq_some.mp h2
  exact ⟨hlt, h2⟩

theorem setMany_filter_enum (vs : List FVal) (q : ℕ × FVal → Bool) :
    setMany (vs.map (fun _ => FVal.nan)) (vs.enum.filter q) =
      vs.enum.map (fun iv => if q iv then iv.2 else .nan) := by
  have hnodupf : ((vs.enum.filter q).map Prod.fst).Nodup := by
    refine List.Sublist.nodup (List.Sublist.map Prod.fst (List.filter_sublist _)) ?_
    rw [List.enum_map_fst]
    exact List.nodup_range vs.length
  have hlen : (setMany (vs.map (fun _ => FVal.nan)) (vs.enum.filter q)).length =
      vs.length := by
    rw [setMany_length, List.length_map]
  refine List.ext_getElem (by rw [hlen, List.length_map, List.enum_length]) ?_
  intro j h1 h2
  have hj : j < vs.length := by rw [← hlen]; exact h1
  have hjE : j < vs.enum.length := by rw [List.enum_length]; exact hj
  have hrhs : (vs.enum.map (fun iv => if q iv then iv.2 else FVal.nan))[j] =
      if q (j, vs[j]) then vs[j] else FVal.nan := by
    rw [List.getElem_map]
    congr 1 <;> rw [List.getElem_enum]
  rw [hrhs]
  have hlhs : (setMany (vs.map (fun _ => FVal.nan)) (vs.enum.filter q))[j] =
      (setMany (vs.map (fun _ => FVal.nan)) (vs.enum.filter q)).getD j .nan := by
    rw [List.getD_eq_getElem _ _ h1]
  rw [hlhs]
  by_cases hq : q (j, vs[j])
  · have hmem : ((j, vs[j]) : ℕ × FVal) ∈ vs.enum.filter q := by
      refine List.mem_filter.mpr ⟨?_, hq⟩
      have := List.getElem_mem hjE
      rwa [List.getElem_enum] at this
    rw [setMany_getD_mem (vs.enum.filter q) (vs.map (fun _ => FVal.nan)) j vs[j]
      hnodupf hmem (by rw [List.length_map]; exact hj), if_pos hq]
  · have hnot : j ∉ (vs.enum.filter q).map Prod.fst := by
      intro hc
      obtain ⟨iv, hivmem, hiv⟩ := List.mem_map.mp hc
      obtain ⟨hive, hivq⟩ := List.mem_filter.mp hivmem
      obtain ⟨hlt, hsome⟩ := mem_enum_bound vs iv hive
      have hiv2 : iv.2 = vs[j] := by
        rw [hiv] at hsome
        rw [List.getElem?_eq_getElem hj] at hsome
        injection hsome with hs
        exact hs.symm
      have hivfull : iv = (j, vs[j]) := by
        obtain ⟨a, b⟩ := iv
        simp only at hiv hiv2
        rw [hiv, hiv2]
      rw [hivfull] at hivq
      exact hq hivq
    rw [setMany_getD_not_mem (vs.enum.filter q) (vs.map (fun _ => FVal.nan)) j hnot,
      List.getD_eq_getElem?_getD, List.getElem?_eq_getElem
        (by rw [List.length_map]; exact hj), if_neg hq]
    simp

theorem reverseStep_scalar (d : List (PyStr × PVal)) (k : PyStr) (v : FVal)
    (hk : cleanName k = true) :
    reverseStep d (k, v) = .ok (dictSet d k (.scalar v)) := by
  simp only [reverseStep]
  rw [pySplit3_clean k hk]

theorem reverseStep_indexed (d : List (PyStr × PVal)) (k : PyStr) (i : ℕ)
    (v : FVal) (vs : List FVal) (hk : cleanName k = true)
    (hget : dictGet d k = some (.vector vs)) (hi : i < vs.length) :
    reverseStep d (flatKey k i, v) = .ok (dictSet d k (.vector (vs.set i v))) := by
  simp only [reverseStep]
  rw [pySplit3_flatKey k i hk]
  simp only [pyInt?_natDigits i, hget]
  rw [if_neg (by omega : ¬((i : ℤ) < 0))]
  rw [if_pos ⟨by omega, by exact_mod_cast hi⟩]
  congr 2

theorem reverseMapper_vector_steps (k : PyStr) (hk : cleanName k = true) :
    ∀ (ents : List (ℕ × FVal)) (d : List (PyStr × PVal)) (cur : List FVal),
      (∀ iv ∈ ents, iv.1 < cur.length) → dictGet d k = some (.vector cur) →
      List.foldlM reverseStep d (ents.map (fun iv => (flatKey k iv.1, iv.2))) =
        .ok (dictSet d k (.vector (setMany cur ents)))
  | [], d, cur, _, hget => by
    rw [List.map_nil, List.foldlM_nil, show setMany cur [] = cur from rfl,
      dictSet_eq_self d k _ hget]
    rfl
  | iv :: rest, d, cur, hbound, hget => by
    rw [List.map_cons, List.foldlM_cons,
      reverseStep_indexed d k iv.1 iv.2 cur hk hget (hbound iv (by simp))]
    show List.foldlM reverseStep (dictSet d k (.vector (cur.set iv.1 iv.2)))
        (rest.map (fun iv => (flatKey k iv.1, iv.2))) = _
    rw [reverseMapper_vector_steps k hk rest _ (cur.set iv.1 iv.2)
      (fun iv2 h2 => by rw [List.length_set]; exact hbound iv2 (by simp [h2]))
      (dictGet_dictSet_self d k _),
      dictSet_dictSet_self, setMany_cons]

/-! ## Main reverse-mapper reconstruction lemma -/

theorem reconEntry_fst (P : PyStr → Bool) (pv : PyStr × PVal) :
    (reconEntry P pv).1 = pv.1 := rfl

theorem ok_bind {ε α β : Type u} (x : α) (f : α → Except ε β) :
    (Except.ok x >>= f : Except ε β) = f x := rfl

theorem pure_eq_ok {ε α : Type u} (x : α) : (pure x : Except ε α) = Except.ok x := rfl

theorem reverseMapper_go (P : PyStr → Bool) :
    ∀ (ps : List (PyStr × PVal)) (pre : List (PyStr × PVal)),
      (ps.map Prod.fst).Nodup →
      (∀ k ∈ ps.map Prod.fst, cleanName k = true) →
      (∀ pv ∈ ps, pv.1 ∉ dictKeys pre) →
      List.foldlM reverseStep (pre ++ ps.map (fun pv => (pv.1, nanTemplate pv.2)))
          (filterFlat P (ps.flatMap flatEntries)) =
        .ok (pre ++ ps.map (reconEntry P)) := by
  intro ps
  induction ps with
  | nil =>
    intro pre _ _ _
    simp only [List.map_nil, List.append_nil, List.flatMap_nil]
    rw [show filterFlat P [] = [] from rfl, List.foldlM_nil, pure_eq_ok]
  | cons pv ps ih =>
    intro pre hnd hclean hpre
    have hnd' : pv.1 ∉ ps.map Prod.fst ∧ (ps.map Prod.fst).Nodup := by
      rw [List.map_cons] at hnd
      exact List.nodup_cons.mp hnd
    have hcleanp : cleanName pv.1 = true := hclean pv.1 (by simp)
    have hcleanr : ∀ k ∈ ps.map Prod.fst, cleanName k = true :=
      fun k hk => hclean k (by simp [hk])
    have hprep : pv.1 ∉ dictKeys pre := hpre pv (by simp)
    rw [List.flatMap_cons]
    rw [show filterFlat P (flatEntries pv ++ ps.flatMap flatEntries) =
      filterFlat P (flatEntries pv) ++ filterFlat P (ps.flatMap flatEntries) from
      List.filter_append _ _]
    rw [List.foldlM_append, List.map_cons]
    have hstepB : ∀ mid : PyStr × PVal, mid = reconEntry P pv →
        List.foldlM reverseStep
          (pre ++ mid :: ps.map (fun pv => (pv.1, nanTemplate pv.2)))
          (filterFlat P (ps.flatMap flatEntries)) =
        .ok (pre ++ reconEntry P pv :: ps.map (reconEntry P)) := by
      intro mid hmid
      subst hmid
      have h2 := ih (pre ++ [reconEntry P pv]) hnd'.2 hcleanr ?_
      · rw [List.append_assoc] at h2
        rw [show pre ++ ([reconEntry P pv] ++
            ps.map (fun pv => (pv.1, nanTemplate pv.2))) =
          pre ++ reconEntry P pv :: ps.map (fun pv => (pv.1, nanTemplate pv.2)) from
          rfl] at h2
        rw [h2]
        simp
      · intro qv hqv
        simp only [dictKeys, List.map_append, List.mem_append, List.map_cons,
          List.map_nil, List.mem_singleton, not_or, reconEntry_fst]
        refine ⟨fun hc => hpre qv (by simp [hqv]) hc, ?_⟩
        intro hc
        exact hnd'.1 (hc ▸ List.mem_map_of_mem Prod.fst hqv)
    cases hv : pv.2 with
    | scalar v =>
      have hfe : flatEntries pv = [(pv.1, v)] := by simp [flatEntries, hv]
      have hnt : nanTemplate (PVal.scalar v) = PVal.scalar FVal.nan := rfl
      rw [hfe, hnt]
      by_cases hP : P pv.1
      · have hrec : reconEntry P pv = (pv.1, .scalar v) := by
          simp [reconEntry, hv, hP]
        rw [show filterFlat P [(pv.1, v)] = [(pv.1, v)] by
          simp [filterFlat, List.filter_cons, hP]]
        rw [List.foldlM_cons, reverseStep_scalar _ pv.1 v hcleanp, ok_bind,
          List.foldlM_nil, pure_eq_ok, ok_bind,
          dictSet_append_mid pre _ pv.1 _ _ hprep]
        exact hstepB (pv.1, PVal.scalar v) (by rw [hrec])
      · have hrec : reconEntry P pv = (pv.1, .scalar .nan) := by
          simp [reconEntry, hv, hP]
        rw [show filterFlat P [(pv.1, v)] = [] by
          simp [filterFlat, List.filter_cons, hP]]
        rw [List.foldlM_nil, pure_eq_ok, ok_bind]
        exact hstepB (pv.1, PVal.scalar FVal.nan) (by rw [hrec])
    | vector vs =>
      have hfe : flatEntries pv =
          vs.enum.map (fun iv => (flatKey pv.1 iv.1, iv.2)) := by
        simp [flatEntries, hv]
      have hnt : nanTemplate (PVal.vector vs) =
          PVal.vector (vs.map (fun _ => FVal.nan)) := rfl
      rw [hfe, hnt]
      have hfilter : filterFlat P (vs.enum.map (fun iv => (flatKey pv.1 iv.1, iv.2))) =
          (vs.enum.filter (fun iv => P (flatKey pv.1 iv.1))).map
            (fun iv => (flatKey pv.1 iv.1, iv.2)) := by
        rw [filterFlat, List.filter_map]
        rfl
      rw [hfilter]
      have hget : dictGet (pre ++ (pv.1, PVal.vector (vs.map (fun _ => FVal.nan))) ::
          ps.map (fun pv => (pv.1, nanTemplate pv.2))) pv.1 =
          some (.vector (vs.map (fun _ => FVal.nan))) := by
        rw [dictGet_append_right _ _ _ hprep]
        simp [dictGet]
      have hbound : ∀ iv ∈ vs.enum.filter (fun iv => P (flatKey pv.1 iv.1)),
          iv.1 < (vs.map (fun _ => FVal.nan)).length := by
        intro iv hiv
        rw [List.length_map]
        exact (mem_enum_bound vs iv (List.mem_of_mem_filter hiv)).1
      rw [reverseMapper_vector_steps pv.1 hcleanp
        (vs.enum.filter (fun iv => P (flatKey pv.1 iv.1)))
        (pre ++ (pv.1, PVal.vector (vs.map (fun _ => FVal.nan))) ::
          ps.map (fun pv => (pv.1, nanTemplate pv.2)))
        (vs.map (fun _ => FVal.nan)) hbound hget]
      rw [ok_bind, dictSet_append_mid pre _ pv.1 _ _ hprep]
      have hrec : reconEntry P pv =
          (pv.1, .vector (vs.enum.map
            (fun iv => if P (flatKey pv.1 iv.1) then iv.2 else .nan))) := by
        simp [reconEntry, hv]
      refine hstepB _ ?_
      rw [setMany_filter_enum vs (fun iv => P (flatKey pv.1 iv.1)), hrec]

/-! ## C2 and C9: the parameter flattener -/

/-- C9: for every well-formed parameter mapping (distinct names that
avoid the reserved `"___"` index-separator pattern: no `"___"`
substring, no trailing underscore — and likewise for excluded names),
the inverse function returned by `flatten_parameter_dict`, applied to
any partial flat mapping (the restriction of the flat dict to the keys
retained by `P`), returns the original nested shape in which every
entry absent from the flat mapping holds NaN and every present entry
holds the supplied value; excluded names are absent from both the flat
mapping and the reconstruction. -/
theorem flatten_parameter_dict_partial (parameters : List (PyStr × PVal))
    (exclude_params : List PyStr) (P : PyStr → Bool)
    (hnd : (parameters.map Prod.fst).Nodup)
    (hclean : ∀ k ∈ parameters.map Prod.fst, cleanName k = true)
    (hcleanex : ∀ k ∈ exclude_params, cleanName k = true) :
    (flatten_parameter_dict parameters exclude_params).2
        (filterFlat P (flatten_parameter_dict parameters exclude_params).1) =
      .ok (reconstruct P parameters exclude_params) ∧
    (∀ e ∈ (flatten_parameter_dict parameters exclude_params).1,
      e.1 ∉ exclude_params) ∧
    (∀ k ∈ exclude_params,
      k ∉ (reconstruct P parameters exclude_params).map Prod.fst) := by
  have hpass := flattenPass_eq parameters exclude_params hnd hclean
  have hfst : (flatten_parameter_dict parameters exclude_params).1 =
      flatOf parameters exclude_params := by
    rw [flatten_parameter_dict, hpass]
  have hsnd : ∀ flat, (flatten_parameter_dict parameters exclude_params).2 flat =
      reverseMapper (templateOf parameters exclude_params) flat := by
    intro flat
    rw [flatten_parameter_dict, hpass]
  have hnd_f : ((parameters.filter
      (fun pv => decide (pv.1 ∉ exclude_params))).map Prod.fst).Nodup :=
    List.Sublist.nodup (List.Sublist.map Prod.fst (List.filter_sublist _)) hnd
  have hclean_f : ∀ k ∈ (parameters.filter
      (fun pv => decide (pv.1 ∉ exclude_params))).map Prod.fst,
      cleanName k = true := by
    intro k hk
    obtain ⟨pv, hpv, hpvk⟩ := List.mem_map.mp hk
    exact hclean k (hpvk ▸ List.mem_map_of_mem Prod.fst (List.mem_of_mem_filter hpv))
  have hgo := reverseMapper_go P
    (parameters.filter (fun pv => decide (pv.1 ∉ exclude_params))) []
    hnd_f hclean_f (by intro pv _; simp [dictKeys])
  refine ⟨?_, ?_, ?_⟩
  · rw [hfst, hsnd]
    show List.foldlM reverseStep (templateOf parameters exclude_params) _ = _
    rw [show templateOf parameters exclude_params =
      [] ++ (parameters.filter (fun pv => decide (pv.1 ∉ exclude_params))).map
        (fun pv => (pv.1, nanTemplate pv.2)) from by rw [List.nil_append]; rfl]
    rw [show flatOf parameters exclude_params =
      (parameters.filter (fun pv => decide (pv.1 ∉ exclude_params))).flatMap
        flatEntries from rfl]
    rw [hgo, List.nil_append]
    rfl
  · intro e he
    rw [hfst] at he
    obtain ⟨pv, hpv, hepv⟩ := List.mem_flatMap.mp he
    have hpvex : pv.1 ∉ exclude_params := by
      have h1 := List.of_mem_filter hpv
      simp only [decide_eq_true_eq] at h1
      exact h1
    intro hc
    rcases mem_flatEntries_keys pv e.1 (List.mem_map_of_mem Prod.fst hepv) with
      h | ⟨i, h⟩
    · exact hpvex (h ▸ hc)
    · exact flatKey_ne_clean pv.1 i e.1 (hcleanex e.1 hc) h.symm
  · intro k hk hc
    rw [show reconstruct P parameters exclude_params =
      (parameters.filter (fun pv => decide (pv.1 ∉ exclude_params))).map
        (reconEntry P) from rfl, List.map_map] at hc
    obtain ⟨pv, hpv, hpvk⟩ := List.mem_map.mp hc
    have hpvex : pv.1 ∉ exclude_params := by
      have h1 := List.of_mem_filter hpv
      simp only [decide_eq_true_eq] at h1
      exact h1
    have hpk : pv.1 = k := hpvk
    exact hpvex (hpk ▸ hk)

/-- Witness for C9 at concrete inputs: parameters a (a vector of
length two), b and c (scalars) with c excluded; the partial flat
mapping keeps only the entry of index 1 of a.  The reconstruction
holds the supplied value at index 1 of a, NaN everywhere else, and c
appears neither in the flat dict nor in the reconstruction. -/
theorem flatten_parameter_dict_partial_witness :
    (flatten_parameter_dict
        [(['a'], .vector [.num 1, .num 2]), (['b'], .scalar (.num 3)),
          (['c'], .scalar (.num 4))] [['c']]).2
      (filterFlat (fun k => k == ['a', '_', '_', '_', '1'])
        (flatten_parameter_dict
          [(['a'], .vector [.num 1, .num 2]), (['b'], .scalar (.num 3)),
            (['c'], .scalar (.num 4))] [['c']]).1) =
      .ok [(['a'], .vector [.nan, .num 2]), (['b'], .scalar .nan)] ∧
    (∀ e ∈ (flatten_parameter_dict
        [(['a'], .vector [.num 1, .num 2]), (['b'], .scalar (.num 3)),
          (['c'], .scalar (.num 4))] [['c']]).1, e.1 ∉ [['c']]) := by
  have h := flatten_parameter_dict_partial
    [(['a'], .vector [.num 1, .num 2]), (['b'], .scalar (.num 3)),
      (['c'], .scalar (.num 4))] [['c']]
    (fun k => k == ['a', '_', '_', '_', '1'])
    (by decide) (by decide) (by decide)
  refine ⟨?_, h.2.1⟩
  rw [h.1]
  decide

/-- C2 counterexample: the mapping with the vector parameter "a" and
the scalar parameter "a___0" (all values scalars or fixed-length
vectors, empty exclude list) does not round-trip: the scalar's flat
key collides with the flat key of index 0 of the vector, so the
reconstruction returns a = [7, 2] and a___0 = NaN instead of the
original mapping. -/
theorem flatten_parameter_dict_roundtrip_counterexample :
    (flatten_parameter_dict
        [(['a'], .vector [.num 1, .num 2]),
          (['a', '_', '_', '_', '0'], .scalar (.num 7))] []).2
      (flatten_parameter_dict
        [(['a'], .vector [.num 1, .num 2]),
          (['a', '_', '_', '_', '0'], .scalar (.num 7))] []).1 ≠
      .ok [(['a'], .vector [.num 1, .num 2]),
        (['a', '_', '_', '_', '0'], .scalar (.num 7))] ∧
    (flatten_parameter_dict
        [(['a'], .vector [.num 1, .num 2]),
          (['a', '_', '_', '_', '0'], .scalar (.num 7))] []).2
      (flatten_parameter_dict
        [(['a'], .vector [.num 1, .num 2]),
          (['a', '_', '_', '_', '0'], .scalar (.num 7))] []).1 =
      .ok [(['a'], .vector [.num 7, .num 2]),
        (['a', '_', '_', '_', '0'], .scalar .nan)] := by
  constructor
  · decide
  · decide

/-- C2 (amended): for every parameter mapping whose values are only
scalars and fixed-length vectors, with an empty exclude list, and
whose names are distinct and avoid the reserved `"___"` index-separator
pattern (no `"___"` substring and no trailing underscore), applying
the inverse function returned by `flatten_parameter_dict` to the flat
mapping it returns reconstructs the original mapping.  (Without the
name restriction the round trip fails: a scalar name of the form
`name___i` collides with the flat key of a vector entry, see the
counterexample.) -/
theorem flatten_parameter_dict_roundtrip (parameters : List (PyStr × PVal))
    (hnd : (parameters.map Prod.fst).Nodup)
    (hclean : ∀ k ∈ parameters.map Prod.fst, cleanName k = true) :
    (flatten_parameter_dict parameters []).2 (flatten_parameter_dict parameters []).1 =
      .ok parameters := by
  have hpass := flattenPass_eq parameters [] hnd hclean
  have hfilter : parameters.filter (fun pv => decide (pv.1 ∉ ([] : List PyStr))) =
      parameters := by
    simp
  have hnd_f : ((parameters.filter
      (fun pv => decide (pv.1 ∉ ([] : List PyStr)))).map Prod.fst).Nodup := by
    rw [hfilter]
    exact hnd
  have hclean_f : ∀ k ∈ (parameters.filter
      (fun pv => decide (pv.1 ∉ ([] : List PyStr)))).map Prod.fst,
      cleanName k = true := by
    rw [hfilter]
    exact hclean
  have hgo := reverseMapper_go (fun _ => true)
    (parameters.filter (fun pv => decide (pv.1 ∉ ([] : List PyStr)))) []
    hnd_f hclean_f (by intro pv _; simp [dictKeys])
  rw [show (flatten_parameter_dict parameters []).1 = flatOf parameters [] from by
    rw [flatten_parameter_dict, hpass]]
  rw [show ∀ flat, (flatten_parameter_dict parameters []).2 flat =
      reverseMapper (templateOf parameters []) flat from by
    intro flat
    rw [flatten_parameter_dict, hpass]]
  show List.foldlM reverseStep (templateOf parameters []) _ = _
  rw [show templateOf parameters [] =
    [] ++ (parameters.filter (fun pv => decide (pv.1 ∉ ([] : List PyStr)))).map
      (fun pv => (pv.1, nanTemplate pv.2)) from by rw [List.nil_append]; rfl]
  rw [show flatOf parameters [] = filterFlat (fun _ => true)
      ((parameters.filter (fun pv => decide (pv.1 ∉ ([] : List PyStr)))).flatMap
        flatEntries) from by
    rw [show filterFlat (fun _ => true)
        ((parameters.filter (fun pv => decide (pv.1 ∉ ([] : List PyStr)))).flatMap
          flatEntries) =
      (parameters.filter (fun pv => decide (pv.1 ∉ ([] : List PyStr)))).flatMap
        flatEntries from List.filter_true _]
    rfl]
  rw [hgo, List.nil_append, hfilter]
  have hid : ∀ pv ∈ parameters, reconEntry (fun _ => true) pv = id pv := by
    intro pv _
    obtain ⟨k, v⟩ := pv
    cases v with
    | scalar w => simp [reconEntry]
    | vector vs =>
      simp only [reconEntry, if_true, id]
      rw [show (fun iv : ℕ × FVal => iv.2) = Prod.snd from rfl, List.enum_map_snd]
  rw [List.map_congr_left hid, List.map_id]

/-- Witness for C2 (amended) at a concrete input: the mapping with a
vector a = [1, 2] and a scalar b = 3 (clean distinct names)
round-trips exactly. -/
theorem flatten_parameter_dict_roundtrip_witness :
    (flatten_parameter_dict
        [(['a'], .vector [.num 1, .num 2]), (['b'], .scalar (.num 3))] []).2
      (flatten_parameter_dict
        [(['a'], .vector [.num 1, .num 2]), (['b'], .scalar (.num 3))] []).1 =
      .ok [(['a'], .vector [.num 1, .num 2]), (['b'], .scalar (.num 3))] :=
  flatten_parameter_dict_roundtrip
    [(['a'], .vector [.num 1, .num 2]), (['b'], .scalar (.num 3))]
    (by decide) (by decide)

end Pymob
